import Mathlib

/-!
Shallow embedding of the ndscan scan execution engine
(`ndscan/experiment/scan_runner.py`) and verification of its specification.

The embedding models the two execution paths of `ScanRunner`:

* the host path (`_run_scan_on_host`), which iterates the point sequence,
  sets parameter stores, pushes axis coordinates to their sinks and invokes
  the per-point callback inline; and
* the chunked core-device path (`_run_scan_on_core_device` together with the
  `_kscan_*` helpers), which buffers up to `CHUNK_SIZE` points in
  `_kscan_current_chunk`, hands per-axis value lists to the kernel, and pops
  and delivers the chunk head on each asynchronous point-completion RPC.

Machine behaviour that lives outside the repository (the ARTIQ scheduler,
the RTIO clock, the fragment's `run_once` and the result-channel push
capability) is modelled as explicit parameters: an answer function for
`scheduler.check_pause`, a raise pattern for `scheduler.pause`, a reading
function for `core.get_rtio_counter_mu`, and a callback describing which
result-channel pushes `run_once` performs for given applied parameter
values (`Modelled from the spec`, section 6: the per-point callback "pushes
zero or more result values to Result Sinks").

Observable behaviour is recorded as a trace of primitive events, and sink
contents are obtained by projecting the trace; parameter-store contents are
threaded as explicit state.
-/

namespace Ndscan

/-- One scan axis: `param_schema["fqn"]`, the binding `path`, and the
parameter store's `coerce` capability (`axis.param_store.coerce`).  The
store's current value is threaded through the runner state instead of being
a mutable field. -/
structure ScanAxis (V : Type) where
  fqn : String
  path : String
  coerce : V → V

/-- Primitive observable events of a scan run. -/
inductive Ev (V : Type) where
  /-- `axis.param_store.set_value(value)` on the host-side store. -/
  | setHostStore (i : Nat) (v : V)
  /-- `sink.push(value)` on the coordinate sink of axis `i`. -/
  | pushSink (i : Nat) (v : V)
  /-- a push performed by the callback on result channel `ch`. -/
  | pushResult (ch : Nat) (v : V)
  /-- `fragment.host_setup()`. -/
  | hostSetup
  /-- `fragment.device_setup()`. -/
  | deviceSetup
  /-- `fragment.run_once()` starts. -/
  | runOnce
  /-- `_kscan_param_setter_i(value)`: the value applied on the device. -/
  | applyOnDevice (i : Nat) (v : V)
  /-- the `_kscan_point_completed` RPC arrives (the acknowledgment). -/
  | pointAck
  /-- `scheduler.check_pause()` queried; `t` is the rtio reading used. -/
  | checkPause (t : Int)
  /-- `scheduler.pause()`: a suspension boundary. -/
  | pauseBoundary
  deriving DecidableEq

/-- Terminal status of a run. -/
inductive RunStatus where
  | completed
  | cancelled
  | fuelOut
  deriving DecidableEq

/-- Values pushed to the coordinate sink of axis `i`, in push order. -/
def sinkPushes (i : Nat) (tr : List (Ev V)) : List V :=
  tr.filterMap fun e => match e with
    | Ev.pushSink j v => if j = i then some v else none
    | _ => none

/-- Values pushed to result channel `ch`, in push order. -/
def resultPushes (ch : Nat) (tr : List (Ev V)) : List V :=
  tr.filterMap fun e => match e with
    | Ev.pushResult c v => if c = ch then some v else none
    | _ => none

/-- The rtio readings at which `scheduler.check_pause` was queried. -/
def checkTimes (tr : List (Ev V)) : List Int :=
  tr.filterMap fun e => match e with
    | Ev.checkPause t => some t
    | _ => none

/-- Of a callback's result pushes, those aimed at channel `ch`. -/
def pushesFor (ch : Nat) (l : List (Nat × V)) : List V :=
  l.filterMap fun q => if q.1 = ch then some q.2 else none

/-- Result pushes performed by `run_once`, as trace events.
Modelled from the spec: the per-point callback is an opaque operation that
"pushes zero or more result values to Result Sinks"; its body
(`fragment.run_once` and the result-channel classes) is outside `src/`. -/
def resultEvents (pushes : List (Nat × V)) : List (Ev V) :=
  pushes.map fun q => Ev.pushResult q.1 q.2

/-! ## Host execution path (`_run_scan_on_host`) -/

/-- `for (axis, value, sink) in zip(axes, axis_values, axis_sinks):
axis.param_store.set_value(value); sink.push(value)` — the sink list is
positional, matching `spec.axes` (see `ScanRunner.run`). -/
def hostApplyEvents : Nat → List (ScanAxis V) → List V → List (Ev V)
  | i, _ :: axs, v :: vs =>
      Ev.setHostStore i v :: Ev.pushSink i v :: hostApplyEvents (i + 1) axs vs
  | _, _, _ => []

/-- Events of one iteration of the host scan loop: apply-and-push each axis
value, then `host_setup`, `device_setup`, `run_once` (whose result pushes
are given by `cb`), then `scheduler.pause()`. -/
def hostPointEvents (axes : List (ScanAxis V)) (cb : List V → List (Nat × V))
    (p : List V) : List (Ev V) :=
  hostApplyEvents 0 axes p
    ++ [Ev.hostSetup, Ev.deviceSetup, Ev.runOnce]
    ++ resultEvents (cb p)
    ++ [Ev.pauseBoundary]

/-- The host scan loop.  `term k` tells whether the `k`-th
`scheduler.pause()` call raises `TerminationRequested` (external
cancellation observed at that suspension boundary). -/
def runScanOnHost (axes : List (ScanAxis V)) (cb : List V → List (Nat × V))
    (term : Nat → Bool) : Nat → List (List V) → List (Ev V) × RunStatus
  | _, [] => ([], RunStatus.completed)
  | k, p :: ps =>
      let evs := hostPointEvents axes cb p
      if term k then (evs, RunStatus.cancelled)
      else
        let r := runScanOnHost axes cb term (k + 1) ps
        (evs ++ r.1, r.2)

/-! ## Chunked core-device path (`_run_scan_on_core_device`) -/

/-- `CHUNK_SIZE = 10` in `_kscan_param_values_chunk`. -/
def CHUNK_SIZE : Nat := 10

/-- Runner state for the core-device path.  `points` is the remainder of
the point iterator, `chunk` is `_kscan_current_chunk`, `stores` the
host-side parameter-store values (one per axis), `trace` the events so
far; `clock` counts `get_rtio_counter_mu` reads, `pauseQueries` counts
`scheduler.check_pause` queries, `hostPauses` counts `scheduler.pause`
calls. -/
structure KState (V : Type) where
  points : List (List V)
  chunk : List (List V)
  stores : List V
  trace : List (Ev V)
  clock : Nat
  pauseQueries : Nat
  hostPauses : Nat
  deriving DecidableEq

/-- Environment of a core-device run: the scan axes and the external
collaborators (callback result pushes, rtio clock readings, answers for
`check_pause`, raise pattern for `scheduler.pause`, the pause-check
interval `seconds_to_mu(0.2)`). -/
structure KEnv (V : Type) where
  axes : List (ScanAxis V)
  cb : List V → List (Nat × V)
  rtio : Nat → Int
  shouldPause : Nat → Bool
  terminate : Nat → Bool
  interval : Int

/-- The per-axis value lists built by `_kscan_param_values_chunk`:
`values[i].append(axis.param_store.coerce(value))` for each point of the
chunk, with `zip(p, axes)` truncating to the shorter of the two.  (The
source iterates points outermost; the resulting per-axis lists are the
same.) -/
def columnValues (chunk : List (List V)) : Nat → List (ScanAxis V) → List (List V)
  | _, [] => []
  | j, ax :: axs =>
      (chunk.filterMap fun p => p[j]?.map ax.coerce) :: columnValues chunk (j + 1) axs

/-- `_kscan_param_values_chunk`: top up the chunk from the point iterator
to `CHUNK_SIZE`, build the coerced per-axis value lists, and raise
`ScanFinished` (modelled as `none`) when `values[0]` is empty.  (`values[0]`
presumes at least one axis; the dispatch in `_run_scan_on_core_device`
guarantees this on every reachable call.) -/
def kscanParamValuesChunk (env : KEnv V) (s : KState V) :
    Option (List (List V) × KState V) :=
  let newChunk := s.chunk ++ s.points.take (CHUNK_SIZE - s.chunk.length)
  let newPoints := s.points.drop (CHUNK_SIZE - s.chunk.length)
  let values := columnValues newChunk 0 env.axes
  match values.head? with
  | none => none
  | some v0 =>
      if v0.isEmpty then none
      else some (values, { s with chunk := newChunk, points := newPoints })

/-- `for value, axis in zip(next_values, self._kscan_axes):
axis.param_store.set_value(value)` — positionally update the stores. -/
def setStoresFromValues : List V → List (ScanAxis V) → List V → List V
  | v :: vs, _ :: axs, _ :: st => v :: setStoresFromValues vs axs st
  | _, _, st => st

/-- The tail of `_kscan_update_host_param_stores`: read the chunk head and
set the host-side stores to its values. -/
def kscanSetStoresToChunkHead (env : KEnv V) (s : KState V) : KState V :=
  match s.chunk.head? with
  | none => s
  | some nv => { s with stores := setStoresFromValues nv env.axes s.stores }

/-- `_kscan_update_host_param_stores`: if the chunk is empty, eagerly prime
the next chunk (returning unchanged on `ScanFinished`), then set the
host-side stores to the values of the chunk head. -/
def kscanUpdateHostParamStores (env : KEnv V) (s : KState V) : KState V :=
  if s.chunk.isEmpty then
    match kscanParamValuesChunk env s with
    | none => s
    | some (_, s1) => kscanSetStoresToChunkHead env s1
  else kscanSetStoresToChunkHead env s

/-- `for value, sink in zip(values, self._kscan_axis_sinks): sink.push(value)`
with the positional sink list matching the axes. -/
def pushEvents : Nat → List V → List (ScanAxis V) → List (Ev V)
  | i, v :: vs, _ :: axs => Ev.pushSink i v :: pushEvents (i + 1) vs axs
  | _, _, _ => []

/-- `_kscan_point_completed` (async RPC, delivered in order): pop the chunk
head, push its values to the axis sinks, then update the host-side stores.
The RPC arrival itself is recorded as `pointAck`. -/
def kscanPointCompleted (env : KEnv V) (s : KState V) : KState V :=
  match s.chunk with
  | [] => s
  | p :: rest =>
      let s1 : KState V :=
        { s with chunk := rest,
                 trace := s.trace ++ Ev.pointAck :: pushEvents 0 p env.axes }
      kscanUpdateHostParamStores env s1

/-- The device-side parameter application of one kernel loop iteration:
`self._kscan_param_setter_j(param_values_j[i])`, where
`param_values_j[i] = axes[j].coerce(p[j])` for the chunk point `p` at
index `i` (see `columnValues`). -/
def applyEvents : Nat → List V → List (ScanAxis V) → List (Ev V)
  | i, v :: vs, ax :: axs =>
      Ev.applyOnDevice i (ax.coerce v) :: applyEvents (i + 1) vs axs
  | _, _, _ => []

/-- The coerced image of a point, i.e. the parameter values `run_once`
observes on the device. -/
def coercePoint : List (ScanAxis V) → List V → List V
  | ax :: axs, v :: vs => ax.coerce v :: coercePoint axs vs
  | _, _ => []

/-- Outcome of one `_kscan_impl_N` kernel invocation. -/
inductive KOutcome where
  | finished
  | paused
  | fuelOut
  deriving DecidableEq

/-- One iteration of the inner `for i in range(len(param_values_0))` loop
of `_kscan_impl_N`: apply the coerced values of the chunk point `p`
(`_kscan_param_setter_j(param_values_j[i])`), run the fragment
(`_kscan_run_fragment_once`, whose result pushes are given by `env.cb` on
the applied values), send the completion RPC, then — if more than the
pause-check interval has elapsed since the reading `lc` — query
`scheduler.check_pause`; a positive answer returns from the kernel. -/
def kscanProcessStep (env : KEnv V) (p : List V) (lc : Int) (s : KState V) :
    KState V × Int × Bool :=
  let s1 : KState V :=
    { s with trace := s.trace ++ applyEvents 0 p env.axes
        ++ Ev.deviceSetup :: Ev.runOnce :: resultEvents (env.cb (coercePoint env.axes p)) }
  let s2 := kscanPointCompleted env s1
  let t := env.rtio s2.clock
  let s3 : KState V := { s2 with clock := s2.clock + 1 }
  if t - lc > env.interval then
    let ans := env.shouldPause s3.pauseQueries
    let s4 : KState V :=
      { s3 with pauseQueries := s3.pauseQueries + 1,
                trace := s3.trace ++ [Ev.checkPause t] }
    if ans then (s4, lc, true) else (s4, t, false)
  else (s3, lc, false)

/-- The inner loop of `_kscan_impl_N`, iterating over the snapshot of the
chunk taken at the chunk request (the per-axis value lists, and hence the
iteration count, are fixed at that moment). -/
def kscanProcessPoints (env : KEnv V) :
    List (List V) → Int → KState V → KState V × Int × Bool
  | [], lc, s => (s, lc, false)
  | p :: rest, lc, s =>
      let r := kscanProcessStep env p lc s
      if r.2.2 then r else kscanProcessPoints env rest r.2.1 r.1

/-- The `while True` loop of `_kscan_impl_N`: request a chunk (propagating
`ScanFinished` out of the kernel), process its points, repeat.  `fuel`
bounds the number of chunk requests. -/
def kscanImplLoop (env : KEnv V) : Nat → Int → KState V → KState V × KOutcome
  | 0, _, s => (s, KOutcome.fuelOut)
  | fuel + 1, lc, s =>
      match kscanParamValuesChunk env s with
      | none => (s, KOutcome.finished)
      | some (_, s1) =>
          let r := kscanProcessPoints env s1.chunk lc s1
          if r.2.2 then (r.1, KOutcome.paused)
          else kscanImplLoop env fuel r.2.1 r.1

/-- One `_kscan_impl_N` invocation: read the initial
`last_pause_check_mu`, then run the chunk loop. -/
def kscanImpl (env : KEnv V) (fuel : Nat) (s : KState V) : KState V × KOutcome :=
  let t0 := env.rtio s.clock
  kscanImplLoop env fuel t0 { s with clock := s.clock + 1 }

/-- The host-side `while True` loop of `_run_scan_on_core_device`:
`host_setup`, run the kernel, then `scheduler.pause()` (which raises
`TerminationRequested` when `env.terminate` says so); `ScanFinished`
escaping the kernel is suppressed into normal completion. -/
def kscanOuterLoop (env : KEnv V) (innerFuel : Nat) :
    Nat → KState V → KState V × RunStatus
  | 0, s => (s, RunStatus.fuelOut)
  | fuel + 1, s =>
      let r := kscanImpl env innerFuel { s with trace := s.trace ++ [Ev.hostSetup] }
      match r.2 with
      | KOutcome.finished => (r.1, RunStatus.completed)
      | KOutcome.fuelOut => (r.1, RunStatus.fuelOut)
      | KOutcome.paused =>
          let s2 : KState V :=
            { r.1 with hostPauses := r.1.hostPauses + 1,
                       trace := r.1.trace ++ [Ev.pauseBoundary] }
          if env.terminate r.1.hostPauses then (s2, RunStatus.cancelled)
          else kscanOuterLoop env innerFuel fuel s2

/-- `_run_scan_on_core_device` after the dispatch check: prime the
host-side stores once, then run the outer loop. -/
def runScanOnCoreDevice (env : KEnv V) (innerFuel outerFuel : Nat)
    (s : KState V) : KState V × RunStatus :=
  kscanOuterLoop env innerFuel outerFuel (kscanUpdateHostParamStores env s)

/-- The state set up at the start of `_run_scan_on_core_device`:
`_kscan_current_chunk = []`, the point iterator, the initial store
values. -/
def initKState (points : List (List V)) (stores : List V) : KState V :=
  { points := points, chunk := [], stores := stores, trace := [],
    clock := 0, pauseQueries := 0, hostPauses := 0 }

/-- The dimensionalities for which a `_kscan_impl_{num_dims}` kernel
exists in `ScanRunner` (`_kscan_impl_1`, `_kscan_impl_2`,
`_kscan_impl_3`). -/
def kscanSupportedDims : List Nat := [1, 2, 3]

/-- Result of entering the core-device path. -/
inductive EntryResult where
  | unsupported
  | ran (st : RunStatus)
  deriving DecidableEq

/-- Entry of `_run_scan_on_core_device`: set up the members, then look up
`_kscan_impl_{num_dims}`; when it does not exist, raise
`NotImplementedError` before anything is executed. -/
def runScanEntry (env : KEnv V) (innerFuel outerFuel : Nat)
    (points : List (List V)) (stores : List V) : KState V × EntryResult :=
  let s := initKState points stores
  if env.axes.length ∈ kscanSupportedDims then
    let r := runScanOnCoreDevice env innerFuel outerFuel s
    (r.1, EntryResult.ran r.2)
  else (s, EntryResult.unsupported)

/-! ## Default-analysis filtering (`filter_default_analyses`) -/

/-- An externally supplied default analysis; only its applicability
predicate `has_data` is consumed by the core. -/
structure DefaultAnalysis where
  hasData : List (String × String) → Bool

/-- The `for analysis in fragment.get_default_analyses(): if
analysis.has_data(axis_identities): result.append(analysis)` loop. -/
def filterAnalysesLoop : List DefaultAnalysis → List (String × String) →
    List DefaultAnalysis → List DefaultAnalysis
  | [], _, acc => acc
  | a :: rest, ids, acc =>
      filterAnalysesLoop rest ids (if a.hasData ids then acc ++ [a] else acc)

/-- `filter_default_analyses(fragment, spec)`, with the fragment's
default-analysis list and the spec's axes passed explicitly. -/
def filter_default_analyses (analyses : List DefaultAnalysis)
    (axes : List (ScanAxis V)) : List DefaultAnalysis :=
  filterAnalysesLoop analyses (axes.map fun s => (s.fqn, s.path)) []

/-! ## Ordering predicates over kernel traces -/

/-- Tracks whether the most recent point-lifecycle event was a
point-completion acknowledgment: starting a new point (a device-side
apply, `device_setup` or `run_once`) clears the flag, `pointAck` sets it,
all other events leave it. -/
def ackStep : Bool → Ev V → Bool
  | _, Ev.pointAck => true
  | _, Ev.applyOnDevice _ _ => false
  | _, Ev.deviceSetup => false
  | _, Ev.runOnce => false
  | b, _ => b

/-- Left-to-right scan of a trace with the `ackStep` flag, requiring the
predicate `ok` to hold at every event. -/
def scanOK (ok : Bool → Ev V → Bool) : Bool → List (Ev V) → Bool
  | _, [] => true
  | b, e :: tr => ok b e && scanOK ok (ackStep b e) tr

/-- A coordinate-sink push is permitted only when the most recent
point-lifecycle event was an acknowledgment (delivery never precedes the
acknowledgment of its point). -/
def okPushAfterAck : Bool → Ev V → Bool
  | b, Ev.pushSink _ _ => b
  | _, _ => true

/-- A `check_pause` query is permitted only when the most recent
point-lifecycle event was an acknowledgment (queries happen only right
after a completed point, never mid-point). -/
def okCheckAfterAck : Bool → Ev V → Bool
  | b, Ev.checkPause _ => b
  | _, _ => true

/-- The events one kernel-loop iteration appends for the chunk point `p`:
device-side applies, `device_setup`, `run_once` with its result pushes,
the completion acknowledgment with its sink deliveries, and possibly one
pause check `ck`. -/
def kscanPointSegment (env : KEnv V) (p : List V) (ck : List (Ev V)) :
    List (Ev V) :=
  applyEvents 0 p env.axes
    ++ (Ev.deviceSetup :: Ev.runOnce
        :: resultEvents (env.cb (coercePoint env.axes p))
      ++ (Ev.pointAck :: (pushEvents 0 p env.axes ++ ck)))

/-! ## Concrete instances used to witness the theorems -/

/-- A one-axis scan over `Int` with identity coercion. -/
def witnessAxis : ScanAxis Int :=
  { fqn := "axis_fqn", path := "axis_path", coerce := fun v => v }

/-- An axis whose store coerces by rounding down to an even value, a
non-identity coercion in the spirit of float-to-int truncation. -/
def witnessAxisTrunc : ScanAxis Int :=
  { fqn := "axis_fqn", path := "axis_path", coerce := fun v => 2 * (v / 2) }

/-- A callback pushing one result: the first axis value plus one. -/
def witnessCb : List Int → List (Nat × Int) :=
  fun vs => [(0, vs.headD 0 + 1)]

/-- A benign environment: identity clock, never pause, never terminate. -/
def witnessEnv : KEnv Int :=
  { axes := [witnessAxis], cb := witnessCb, rtio := fun k => (k : Int),
    shouldPause := fun _ => false, terminate := fun _ => false,
    interval := 100 }

/-! ## Trace projection lemmas -/

theorem sinkPushes_append (i : Nat) (t1 t2 : List (Ev V)) :
    sinkPushes i (t1 ++ t2) = sinkPushes i t1 ++ sinkPushes i t2 :=
  List.filterMap_append _ _ _

theorem resultPushes_append (ch : Nat) (t1 t2 : List (Ev V)) :
    resultPushes ch (t1 ++ t2) = resultPushes ch t1 ++ resultPushes ch t2 :=
  List.filterMap_append _ _ _

theorem checkTimes_append (t1 t2 : List (Ev V)) :
    checkTimes (t1 ++ t2) = checkTimes t1 ++ checkTimes t2 :=
  List.filterMap_append _ _ _

@[simp] theorem sinkPushes_nil (i : Nat) : sinkPushes i ([] : List (Ev V)) = [] := rfl

@[simp] theorem resultPushes_nil (ch : Nat) : resultPushes ch ([] : List (Ev V)) = [] := rfl

@[simp] theorem checkTimes_nil : checkTimes ([] : List (Ev V)) = [] := rfl

/-- An event contributes to an axis coordinate sink only if it is a
`pushSink` aimed at that sink. -/
@[simp] theorem sinkPushes_cons (i : Nat) (e : Ev V) (tr : List (Ev V)) :
    sinkPushes i (e :: tr) =
      (match e with
        | Ev.pushSink j v => if j = i then some v else none
        | _ => none).toList ++ sinkPushes i tr := by
  cases e <;> simp only [sinkPushes, List.filterMap_cons] <;> try rfl
  split <;> simp_all

@[simp] theorem resultPushes_cons (ch : Nat) (e : Ev V) (tr : List (Ev V)) :
    resultPushes ch (e :: tr) =
      (match e with
        | Ev.pushResult c v => if c = ch then some v else none
        | _ => none).toList ++ resultPushes ch tr := by
  cases e <;> simp only [resultPushes, List.filterMap_cons] <;> try rfl
  split <;> simp_all

@[simp] theorem checkTimes_cons (e : Ev V) (tr : List (Ev V)) :
    checkTimes (e :: tr) =
      (match e with
        | Ev.checkPause t => some t
        | _ => none).toList ++ checkTimes tr := by
  cases e <;> simp only [checkTimes, List.filterMap_cons] <;> rfl

theorem sinkPushes_applyEvents (i : Nat) :
    ∀ (k : Nat) (vs : List V) (axs : List (ScanAxis V)),
      sinkPushes i (applyEvents k vs axs) = []
  | _, [], _ => rfl
  | _, _ :: _, [] => rfl
  | k, v :: vs, ax :: axs => by
      simp [applyEvents, sinkPushes_applyEvents i (k + 1) vs axs]

theorem resultPushes_applyEvents (ch : Nat) :
    ∀ (k : Nat) (vs : List V) (axs : List (ScanAxis V)),
      resultPushes ch (applyEvents k vs axs) = []
  | _, [], _ => rfl
  | _, _ :: _, [] => rfl
  | k, v :: vs, ax :: axs => by
      simp [applyEvents, resultPushes_applyEvents ch (k + 1) vs axs]

theorem checkTimes_applyEvents :
    ∀ (k : Nat) (vs : List V) (axs : List (ScanAxis V)),
      checkTimes (applyEvents k vs axs) = []
  | _, [], _ => rfl
  | _, _ :: _, [] => rfl
  | k, v :: vs, ax :: axs => by
      simp [applyEvents, checkTimes_applyEvents (k + 1) vs axs]

theorem sinkPushes_resultEvents (i : Nat) (l : List (Nat × V)) :
    sinkPushes i (resultEvents l) = [] := by
  induction l with
  | nil => rfl
  | cons q l ih =>
      simp only [resultEvents] at ih ⊢
      simp [ih]

theorem resultPushes_resultEvents (ch : Nat) (l : List (Nat × V)) :
    resultPushes ch (resultEvents l) = pushesFor ch l := by
  induction l with
  | nil => rfl
  | cons q l ih =>
      simp only [resultEvents, pushesFor] at ih ⊢
      by_cases h : q.1 = ch <;> simp [List.filterMap_cons, h, ih]

theorem checkTimes_resultEvents (l : List (Nat × V)) :
    checkTimes (resultEvents l) = [] := by
  induction l with
  | nil => rfl
  | cons q l ih =>
      simp only [resultEvents] at ih ⊢
      simp [ih]

theorem sinkPushes_pushEvents (i : Nat) :
    ∀ (k : Nat) (vs : List V) (axs : List (ScanAxis V)),
      vs.length ≤ axs.length →
      sinkPushes i (pushEvents k vs axs) =
        if k ≤ i then vs[i - k]?.toList else []
  | k, [], _, _ => by simp [pushEvents]
  | _, _ :: _, [], h => by simp at h
  | k, v :: vs, ax :: axs, h => by
      have ih := sinkPushes_pushEvents i (k + 1) vs axs (by simpa using h)
      rcases Nat.lt_trichotomy k i with hlt | rfl | hgt
      · have h1 : ¬ k = i := Nat.ne_of_lt hlt
        have h2 : k + 1 ≤ i := hlt
        have h3 : i - k = (i - (k + 1)) + 1 := by omega
        simp [pushEvents, ih, h1, h2, Nat.le_of_lt hlt, h3]
      · have h2 : ¬ k + 1 ≤ k := by omega
        simp [pushEvents, ih, h2]
      · have h1 : ¬ k = i := by omega
        have h2 : ¬ k + 1 ≤ i := by omega
        have h3 : ¬ k ≤ i := by omega
        simp [pushEvents, ih, h1, h2, h3]

theorem resultPushes_pushEvents (ch : Nat) :
    ∀ (k : Nat) (vs : List V) (axs : List (ScanAxis V)),
      resultPushes ch (pushEvents k vs axs) = []
  | _, [], _ => rfl
  | _, _ :: _, [] => rfl
  | k, v :: vs, ax :: axs => by
      simp [pushEvents, resultPushes_pushEvents ch (k + 1) vs axs]

theorem checkTimes_pushEvents :
    ∀ (k : Nat) (vs : List V) (axs : List (ScanAxis V)),
      checkTimes (pushEvents k vs axs) = []
  | _, [], _ => rfl
  | _, _ :: _, [] => rfl
  | k, v :: vs, ax :: axs => by
      simp [pushEvents, checkTimes_pushEvents (k + 1) vs axs]

theorem sinkPushes_hostApplyEvents (i : Nat) :
    ∀ (k : Nat) (axs : List (ScanAxis V)) (vs : List V),
      vs.length ≤ axs.length →
      sinkPushes i (hostApplyEvents k axs vs) =
        if k ≤ i then vs[i - k]?.toList else []
  | k, _, [], _ => by cases ‹List (ScanAxis V)› <;> simp [hostApplyEvents]
  | _, [], _ :: _, h => by simp at h
  | k, ax :: axs, v :: vs, h => by
      have ih := sinkPushes_hostApplyEvents i (k + 1) axs vs (by simpa using h)
      rcases Nat.lt_trichotomy k i with hlt | rfl | hgt
      · have h1 : ¬ k = i := Nat.ne_of_lt hlt
        have h2 : k + 1 ≤ i := hlt
        have h3 : i - k = (i - (k + 1)) + 1 := by omega
        simp [hostApplyEvents, ih, h1, h2, Nat.le_of_lt hlt, h3]
      · have h2 : ¬ k + 1 ≤ k := by omega
        simp [hostApplyEvents, ih, h2]
      · have h1 : ¬ k = i := by omega
        have h2 : ¬ k + 1 ≤ i := by omega
        have h3 : ¬ k ≤ i := by omega
        simp [hostApplyEvents, ih, h1, h2, h3]

theorem resultPushes_hostApplyEvents (ch : Nat) :
    ∀ (k : Nat) (axs : List (ScanAxis V)) (vs : List V),
      resultPushes ch (hostApplyEvents k axs vs) = []
  | _, _, [] => by cases ‹List (ScanAxis V)› <;> rfl
  | _, [], _ :: _ => rfl
  | k, ax :: axs, v :: vs => by
      simp [hostApplyEvents, resultPushes_hostApplyEvents ch (k + 1) axs vs]

theorem checkTimes_hostApplyEvents :
    ∀ (k : Nat) (axs : List (ScanAxis V)) (vs : List V),
      checkTimes (hostApplyEvents k axs vs) = []
  | _, _, [] => by cases ‹List (ScanAxis V)› <;> rfl
  | _, [], _ :: _ => rfl
  | k, ax :: axs, v :: vs => by
      simp [hostApplyEvents, checkTimes_hostApplyEvents (k + 1) axs vs]

/-! ## Well-formedness and the delivery invariant -/

/-- Every point supplies exactly one value per axis (the contract of
`generate_points` for a scan over these axes). -/
def WFPoints (axes : List (ScanAxis V)) (ps : List (List V)) : Prop :=
  ∀ p ∈ ps, p.length = axes.length

/-- Well-formed runner state: at least one axis (guaranteed by the
`_kscan_impl_{num_dims}` dispatch), well-formed pending and buffered
points, and one store value per axis. -/
structure WFK (env : KEnv V) (s : KState V) : Prop where
  axesNe : env.axes ≠ []
  pointsWF : WFPoints env.axes s.points
  chunkWF : WFPoints env.axes s.chunk
  storesLen : s.stores.length = env.axes.length

/-- The first `d` points of the scan have been delivered: every axis
coordinate sink holds exactly the axis projection of the first `d` points
in order, and every result channel holds exactly the callback's pushes for
the first `d` points in order. -/
def Delivered (env : KEnv V) (allPoints : List (List V)) (d : Nat)
    (tr : List (Ev V)) : Prop :=
  (∀ i, sinkPushes i tr = (allPoints.take d).filterMap fun p => p[i]?) ∧
  ∀ ch, resultPushes ch tr =
    (allPoints.take d).flatMap fun p => pushesFor ch (env.cb (coercePoint env.axes p))

/-- Core-device runner invariant: some prefix of length `d` of the scan's
point sequence is delivered, and the chunk followed by the unread points is
exactly the remainder. -/
def KInv (env : KEnv V) (allPoints : List (List V)) (d : Nat)
    (s : KState V) : Prop :=
  Delivered env allPoints d s.trace ∧ s.chunk ++ s.points = allPoints.drop d

theorem Delivered_append_neutral {env : KEnv V} {allPoints : List (List V)}
    {d : Nat} {tr Δ : List (Ev V)} (h : Delivered env allPoints d tr)
    (hs : ∀ i, sinkPushes i Δ = []) (hr : ∀ ch, resultPushes ch Δ = []) :
    Delivered env allPoints d (tr ++ Δ) := by
  refine ⟨fun i => ?_, fun ch => ?_⟩
  · rw [sinkPushes_append, h.1 i, hs i, List.append_nil]
  · rw [resultPushes_append, h.2 ch, hr ch, List.append_nil]

theorem Delivered_step {env : KEnv V} {allPoints : List (List V)} {d : Nat}
    {tr Δ : List (Ev V)} {p : List V} (h : Delivered env allPoints d tr)
    (hp : allPoints[d]? = some p)
    (hΔs : ∀ i, sinkPushes i Δ = p[i]?.toList)
    (hΔr : ∀ ch, resultPushes ch Δ = pushesFor ch (env.cb (coercePoint env.axes p))) :
    Delivered env allPoints (d + 1) (tr ++ Δ) := by
  have htake : allPoints.take (d + 1) = allPoints.take d ++ [p] := by
    rw [List.take_succ, hp]; rfl
  refine ⟨fun i => ?_, fun ch => ?_⟩
  · rw [sinkPushes_append, h.1 i, hΔs i, htake, List.filterMap_append]
    cases hpi : p[i]? <;> simp [List.filterMap_cons, hpi]
  · rw [resultPushes_append, h.2 ch, hΔr ch, htake, List.flatMap_append]
    simp

/-! ## Properties of `_kscan_param_values_chunk` -/

theorem kscanParamValuesChunk_some {env : KEnv V} {s : KState V}
    {values : List (List V)} {s' : KState V}
    (h : kscanParamValuesChunk env s = some (values, s')) :
    s'.chunk = s.chunk ++ s.points.take (CHUNK_SIZE - s.chunk.length) ∧
    s'.points = s.points.drop (CHUNK_SIZE - s.chunk.length) ∧
    s'.stores = s.stores ∧ s'.trace = s.trace ∧ s'.clock = s.clock ∧
    s'.pauseQueries = s.pauseQueries ∧ s'.hostPauses = s.hostPauses ∧
    values = columnValues s'.chunk 0 env.axes ∧ s'.chunk ≠ [] := by
  cases hax : env.axes with
  | nil => simp [kscanParamValuesChunk, hax, columnValues] at h
  | cons ax axs =>
      rw [kscanParamValuesChunk] at h
      simp only [hax, columnValues, List.head?] at h
      split at h
      · exact absurd h (by simp)
      · rename_i hne
        injection h with h
        injection h with h1 h2
        subst h1; subst h2
        refine ⟨rfl, rfl, rfl, rfl, rfl, rfl, rfl, by simp [hax, columnValues], ?_⟩
        intro hc
        have hc2 : s.chunk ++ List.take (CHUNK_SIZE - s.chunk.length) s.points = [] := hc
        rw [hc2] at hne
        simp at hne

theorem kscanParamValuesChunk_none_iff {env : KEnv V} {s : KState V}
    (hax : env.axes ≠ []) (hpts : WFPoints env.axes s.points)
    (hch : WFPoints env.axes s.chunk) :
    kscanParamValuesChunk env s = none ↔ (s.chunk = [] ∧ s.points = []) := by
  obtain ⟨ax, axs, haxs⟩ : ∃ ax axs, env.axes = ax :: axs := by
    cases h : env.axes with
    | nil => exact absurd h hax
    | cons a l => exact ⟨a, l, rfl⟩
  rw [haxs] at hpts hch
  rw [kscanParamValuesChunk]
  simp only [haxs, columnValues, List.head?]
  constructor
  · intro h
    split at h
    · rename_i hempty
      rw [List.isEmpty_iff, List.filterMap_eq_nil_iff] at hempty
      have hnil : s.chunk ++ s.points.take (CHUNK_SIZE - s.chunk.length) = [] := by
        by_contra hne
        obtain ⟨q, hq⟩ := List.exists_mem_of_ne_nil _ hne
        have hqlen : q.length = (ax :: axs).length := by
          rcases List.mem_append.mp hq with hq1 | hq2
          · exact hch q hq1
          · exact hpts q (List.mem_of_mem_take hq2)
        have hq0 := hempty q hq
        have hqnil : q = [] := by
          by_cases hq1 : q = []
          · exact hq1
          · exfalso
            rw [List.getElem?_eq_getElem (by rw [hqlen]; simp)] at hq0
            simp at hq0
        rw [hqnil] at hqlen
        simp at hqlen
      rcases List.append_eq_nil.mp hnil with ⟨h1, h2⟩
      refine ⟨h1, ?_⟩
      rw [h1] at h2
      simpa [CHUNK_SIZE, List.take_eq_nil_iff] using h2
    · simp at h
  · rintro ⟨h1, h2⟩
    rw [h1, h2]
    simp [CHUNK_SIZE]

theorem kscanParamValuesChunk_WF {env : KEnv V} {s : KState V}
    {values : List (List V)} {s' : KState V} (hwf : WFK env s)
    (h : kscanParamValuesChunk env s = some (values, s')) : WFK env s' := by
  obtain ⟨hc, hp, hst, -, -, -, -, -, -⟩ := kscanParamValuesChunk_some h
  refine ⟨hwf.axesNe, ?_, ?_, by rw [hst]; exact hwf.storesLen⟩
  · intro q hq
    rw [hp] at hq
    exact hwf.pointsWF q (List.mem_of_mem_drop hq)
  · intro q hq
    rw [hc] at hq
    rcases List.mem_append.mp hq with h1 | h2
    · exact hwf.chunkWF q h1
    · exact hwf.pointsWF q (List.mem_of_mem_take h2)

/-! ## Properties of `_kscan_update_host_param_stores` and
`_kscan_point_completed` -/

theorem setStoresFromValues_eq :
    ∀ (nv : List V) (axs : List (ScanAxis V)) (st : List V),
      nv.length = axs.length → axs.length = st.length →
      setStoresFromValues nv axs st = nv
  | [], axs, st, h1, h2 => by
      cases axs with
      | nil =>
          cases st with
          | nil => rfl
          | cons s st => simp at h2
      | cons a axs => simp at h1
  | v :: nv, axs, st, h1, h2 => by
      cases axs with
      | nil => simp at h1
      | cons a axs =>
          cases st with
          | nil => simp at h2
          | cons s st =>
              simp [setStoresFromValues,
                setStoresFromValues_eq nv axs st (by simpa using h1) (by simpa using h2)]

theorem kscanSetStoresToChunkHead_cons {env : KEnv V} {s : KState V}
    {q : List V} {qr : List (List V)} (h : s.chunk = q :: qr) :
    kscanSetStoresToChunkHead env s
      = { s with stores := setStoresFromValues q env.axes s.stores } := by
  rw [kscanSetStoresToChunkHead.eq_def, h]
  rfl

theorem kscanUpdateHostParamStores_of_cons {env : KEnv V} {s : KState V}
    {c : List V} {cr : List (List V)} (h : s.chunk = c :: cr) :
    kscanUpdateHostParamStores env s
      = { s with stores := setStoresFromValues c env.axes s.stores } := by
  have h2 : kscanUpdateHostParamStores env s = kscanSetStoresToChunkHead env s := by
    rw [kscanUpdateHostParamStores.eq_def, h]
    rfl
  rw [h2]
  exact kscanSetStoresToChunkHead_cons h

theorem kscanUpdateHostParamStores_of_nil_none {env : KEnv V} {s : KState V}
    (h : s.chunk = []) (hreq : kscanParamValuesChunk env s = none) :
    kscanUpdateHostParamStores env s = s := by
  rw [kscanUpdateHostParamStores.eq_def, h, hreq]
  rfl

theorem kscanUpdateHostParamStores_of_nil_some {env : KEnv V} {s : KState V}
    {values : List (List V)} {s1 : KState V} (h : s.chunk = [])
    (hreq : kscanParamValuesChunk env s = some (values, s1)) :
    kscanUpdateHostParamStores env s = kscanSetStoresToChunkHead env s1 := by
  rw [kscanUpdateHostParamStores.eq_def, h, hreq]
  rfl

theorem kscanUpdateHostParamStores_spec (env : KEnv V) (s : KState V)
    (hax : env.axes ≠ []) (hpts : WFPoints env.axes s.points)
    (hch : WFPoints env.axes s.chunk) (hst : s.stores.length = env.axes.length) :
    (kscanUpdateHostParamStores env s).trace = s.trace ∧
    (kscanUpdateHostParamStores env s).chunk ++ (kscanUpdateHostParamStores env s).points
      = s.chunk ++ s.points ∧
    (∃ app, (kscanUpdateHostParamStores env s).chunk = s.chunk ++ app) ∧
    (kscanUpdateHostParamStores env s).clock = s.clock ∧
    (kscanUpdateHostParamStores env s).pauseQueries = s.pauseQueries ∧
    (kscanUpdateHostParamStores env s).hostPauses = s.hostPauses ∧
    WFPoints env.axes (kscanUpdateHostParamStores env s).points ∧
    WFPoints env.axes (kscanUpdateHostParamStores env s).chunk ∧
    (kscanUpdateHostParamStores env s).stores.length = env.axes.length ∧
    ((s.chunk = [] ∧ s.points = []) → kscanUpdateHostParamStores env s = s) ∧
    (s.chunk ++ s.points ≠ [] →
      ∃ q qr, (kscanUpdateHostParamStores env s).chunk = q :: qr ∧
        (kscanUpdateHostParamStores env s).stores = q) := by
  by_cases hc : s.chunk = []
  · cases hreq : kscanParamValuesChunk env s with
    | none =>
        rw [kscanUpdateHostParamStores_of_nil_none hc hreq]
        have hempty := (kscanParamValuesChunk_none_iff hax hpts hch).mp hreq
        refine ⟨rfl, rfl, ⟨[], by simp⟩, rfl, rfl, rfl, hpts, hch, hst,
          fun _ => rfl, ?_⟩
        intro hne
        rw [hempty.1, hempty.2] at hne
        simp at hne
    | some r =>
        obtain ⟨values, s1⟩ := r
        rw [kscanUpdateHostParamStores_of_nil_some hc hreq]
        obtain ⟨hc1, hp1, hst1, htr1, hck1, hpq1, hhp1, -, hne1⟩ :=
          kscanParamValuesChunk_some hreq
        have hwf1 := kscanParamValuesChunk_WF ⟨hax, hpts, hch, hst⟩ hreq
        obtain ⟨q, qr, hq⟩ : ∃ q qr, s1.chunk = q :: qr := by
          cases hq2 : s1.chunk with
          | nil => exact absurd hq2 hne1
          | cons a l => exact ⟨a, l, rfl⟩
        have hqlen : q.length = env.axes.length := hwf1.chunkWF q (by rw [hq]; simp)
        have hstores : setStoresFromValues q env.axes s1.stores = q :=
          setStoresFromValues_eq _ _ _ hqlen (by rw [hst1, hst])
        rw [kscanSetStoresToChunkHead_cons hq]
        refine ⟨htr1, ?_, ⟨s1.chunk, ?_⟩, hck1, hpq1, hhp1, hwf1.pointsWF,
          hwf1.chunkWF, ?_, ?_, ?_⟩
        · show s1.chunk ++ s1.points = s.chunk ++ s.points
          rw [hc1, hp1, hc]
          simp [List.take_append_drop]
        · show s1.chunk = s.chunk ++ s1.chunk
          rw [hc, List.nil_append]
        · show (setStoresFromValues q env.axes s1.stores).length = env.axes.length
          rw [hstores, hqlen]
        · rintro ⟨h1, h2⟩
          exact absurd ((kscanParamValuesChunk_none_iff hax hpts hch).mpr ⟨h1, h2⟩)
            (by simp [hreq])
        · intro _
          exact ⟨q, qr, hq, hstores⟩
  · obtain ⟨c, cr, hcc⟩ : ∃ c cr, s.chunk = c :: cr := by
      cases hq : s.chunk with
      | nil => exact absurd hq hc
      | cons a l => exact ⟨a, l, rfl⟩
    have hclen : c.length = env.axes.length := hch c (by rw [hcc]; simp)
    have hstores : setStoresFromValues c env.axes s.stores = c :=
      setStoresFromValues_eq _ _ _ hclen hst.symm
    rw [kscanUpdateHostParamStores_of_cons hcc]
    refine ⟨rfl, rfl, ⟨[], by simp⟩, rfl, rfl, rfl, hpts, hch, ?_, ?_, ?_⟩
    · show (setStoresFromValues c env.axes s.stores).length = env.axes.length
      rw [hstores, hclen]
    · rintro ⟨h1, -⟩
      exact absurd h1 hc
    · intro _
      exact ⟨c, cr, hcc, hstores⟩

theorem kscanPointCompleted_spec (env : KEnv V) {s : KState V} {p : List V}
    {rest : List (List V)} (hax : env.axes ≠ [])
    (hpts : WFPoints env.axes s.points) (hch : WFPoints env.axes s.chunk)
    (hst : s.stores.length = env.axes.length) (hchunk : s.chunk = p :: rest) :
    (kscanPointCompleted env s).trace
      = s.trace ++ Ev.pointAck :: pushEvents 0 p env.axes ∧
    (kscanPointCompleted env s).chunk ++ (kscanPointCompleted env s).points
      = rest ++ s.points ∧
    (∃ app, (kscanPointCompleted env s).chunk = rest ++ app) ∧
    (kscanPointCompleted env s).clock = s.clock ∧
    (kscanPointCompleted env s).pauseQueries = s.pauseQueries ∧
    (kscanPointCompleted env s).hostPauses = s.hostPauses ∧
    WFPoints env.axes (kscanPointCompleted env s).points ∧
    WFPoints env.axes (kscanPointCompleted env s).chunk ∧
    (kscanPointCompleted env s).stores.length = env.axes.length ∧
    ((rest = [] ∧ s.points = []) → (kscanPointCompleted env s).stores = s.stores) ∧
    (rest ++ s.points ≠ [] →
      ∃ q qr, (kscanPointCompleted env s).chunk = q :: qr ∧
        (kscanPointCompleted env s).stores = q) := by
  rw [kscanPointCompleted]
  simp only [hchunk]
  have hrestwf : WFPoints env.axes rest := fun q hq => hch q (by rw [hchunk]; simp [hq])
  obtain ⟨htr, hcat, happ, hck, hpq, hhp, hwp, hwc, hsl, hemp, hhead⟩ :=
    kscanUpdateHostParamStores_spec env
      { s with chunk := rest,
               trace := s.trace ++ Ev.pointAck :: pushEvents 0 p env.axes }
      hax hpts hrestwf hst
  exact ⟨htr, hcat, happ, hck, hpq, hhp, hwp, hwc, hsl,
    fun h => by rw [hemp ⟨h.1, h.2⟩], hhead⟩

/-! ## The kernel loop preserves the delivery invariant -/

theorem kscanProcessStep_spec (env : KEnv V) (allPoints : List (List V))
    {p : List V} {rest2 : List (List V)} (lc : Int) {s : KState V} {d : Nat}
    (hwf : WFK env s) (hinv : KInv env allPoints d s)
    (hchunk : s.chunk = p :: rest2) :
    ∃ app,
      WFK env (kscanProcessStep env p lc s).1 ∧
      KInv env allPoints (d + 1) (kscanProcessStep env p lc s).1 ∧
      (kscanProcessStep env p lc s).1.chunk = rest2 ++ app ∧
      d < allPoints.length := by
  have hdrop : allPoints.drop d = p :: (rest2 ++ s.points) := by
    have h2 := hinv.2
    rw [hchunk] at h2
    rw [← h2]
    rfl
  have hdlt : d < allPoints.length := by
    have : allPoints.drop d ≠ [] := by rw [hdrop]; simp
    rw [Ne, List.drop_eq_nil_iff] at this
    omega
  have hpd : allPoints[d]? = some p := by
    have := List.getElem?_drop allPoints d 0
    rw [hdrop] at this
    simpa using this.symm
  have hdrop1 : allPoints.drop (d + 1) = rest2 ++ s.points := by
    rw [← List.drop_drop, hdrop]
    rfl
  have hplen : p.length = env.axes.length := hwf.chunkWF p (by rw [hchunk]; simp)
  -- the state after the device-side work of the point
  set s1 : KState V :=
    { s with trace := s.trace ++ applyEvents 0 p env.axes
        ++ Ev.deviceSetup :: Ev.runOnce :: resultEvents (env.cb (coercePoint env.axes p)) }
    with hs1
  have hs1chunk : s1.chunk = p :: rest2 := hchunk
  obtain ⟨htr2, hcat2, ⟨app, happ2⟩, hck2, hpq2, hhp2, hwp2, hwc2, hsl2, -, -⟩ :=
    @kscanPointCompleted_spec V env s1 p rest2 hwf.axesNe hwf.pointsWF
      hwf.chunkWF hwf.storesLen hs1chunk
  set s2 := kscanPointCompleted env s1 with hs2
  have htrace2 : s2.trace = s.trace
      ++ ((applyEvents 0 p env.axes
          ++ Ev.deviceSetup :: Ev.runOnce :: resultEvents (env.cb (coercePoint env.axes p)))
        ++ Ev.pointAck :: pushEvents 0 p env.axes) := by
    rw [htr2]
    show (s.trace ++ applyEvents 0 p env.axes
        ++ Ev.deviceSetup :: Ev.runOnce :: resultEvents (env.cb (coercePoint env.axes p)))
        ++ Ev.pointAck :: pushEvents 0 p env.axes = _
    simp [List.append_assoc]
  have hdel2 : Delivered env allPoints (d + 1) s2.trace := by
    rw [htrace2]
    refine Delivered_step hinv.1 hpd (fun i => ?_) (fun ch => ?_)
    · simp only [sinkPushes_append, sinkPushes_applyEvents, sinkPushes_cons,
        sinkPushes_resultEvents, List.nil_append, List.append_nil,
        Option.toList_none]
      rw [sinkPushes_pushEvents i 0 p env.axes (by rw [hplen])]
      simp
    · simp only [resultPushes_append, resultPushes_applyEvents,
        resultPushes_cons, resultPushes_resultEvents, resultPushes_pushEvents,
        List.nil_append, List.append_nil, Option.toList_none]
  have hinv2 : KInv env allPoints (d + 1) s2 := by
    refine ⟨hdel2, ?_⟩
    rw [hcat2, hdrop1]
  have hwf2 : WFK env s2 := ⟨hwf.axesNe, hwp2, hwc2, hsl2⟩
  -- the branches only add a pause check (neutral for delivery) and clock ticks
  rw [kscanProcessStep]
  simp only []
  split
  · split
    · refine ⟨app, ⟨hwf.axesNe, hwp2, hwc2, hsl2⟩, ⟨?_, ?_⟩, ?_, hdlt⟩
      · show Delivered env allPoints (d + 1)
          (s2.trace ++ [Ev.checkPause (env.rtio s2.clock)])
        exact Delivered_append_neutral hdel2 (by simp) (by simp)
      · show s2.chunk ++ s2.points = allPoints.drop (d + 1)
        exact hinv2.2
      · exact happ2
    · refine ⟨app, ⟨hwf.axesNe, hwp2, hwc2, hsl2⟩, ⟨?_, ?_⟩, ?_, hdlt⟩
      · show Delivered env allPoints (d + 1)
          (s2.trace ++ [Ev.checkPause (env.rtio s2.clock)])
        exact Delivered_append_neutral hdel2 (by simp) (by simp)
      · show s2.chunk ++ s2.points = allPoints.drop (d + 1)
        exact hinv2.2
      · exact happ2
  · exact ⟨app, ⟨hwf.axesNe, hwp2, hwc2, hsl2⟩, ⟨hdel2, hinv2.2⟩, happ2, hdlt⟩

theorem kscanProcessPoints_inv (env : KEnv V) (allPoints : List (List V)) :
    ∀ (remaining ext : List (List V)) (lc : Int) (s : KState V) (d : Nat),
      WFK env s → KInv env allPoints d s → s.chunk = remaining ++ ext →
      d ≤ allPoints.length →
      ∃ k, k ≤ remaining.length ∧ d + k ≤ allPoints.length ∧
        WFK env (kscanProcessPoints env remaining lc s).1 ∧
        KInv env allPoints (d + k) (kscanProcessPoints env remaining lc s).1 ∧
        ((kscanProcessPoints env remaining lc s).2.2 = false →
          k = remaining.length) ∧
        ((kscanProcessPoints env remaining lc s).2.2 = true → 1 ≤ k)
  | [], ext, lc, s, d, hwf, hinv, hchunk, hd =>
      ⟨0, Nat.le_refl _, by simpa using hd, hwf, hinv, fun _ => rfl,
        fun h => by cases h⟩
  | p :: rest, ext, lc, s, d, hwf, hinv, hchunk, hd => by
      have hchunk2 : s.chunk = p :: (rest ++ ext) := by rw [hchunk]; rfl
      obtain ⟨app, hwf2, hinv2, hchunk3, hdlt⟩ :=
        kscanProcessStep_spec env allPoints lc hwf hinv hchunk2
      rw [kscanProcessPoints]
      cases hpz : (kscanProcessStep env p lc s).2.2 with
      | true =>
          simp only [hpz, if_true]
          refine ⟨1, by simp, by omega, hwf2, hinv2, ?_, ?_⟩
          · intro h
            simp at h
          · intro _
            exact Nat.le_refl 1
      | false =>
          simp only [hpz, Bool.false_eq_true, if_false]
          obtain ⟨k, hk1, hk2, hwf3, hinv3, hfalse, htrue⟩ :=
            kscanProcessPoints_inv env allPoints rest (ext ++ app)
              (kscanProcessStep env p lc s).2.1 (kscanProcessStep env p lc s).1
              (d + 1) hwf2 hinv2 (by rw [hchunk3, List.append_assoc]) (by omega)
          refine ⟨k + 1, by simp; omega, by omega, hwf3, ?_, ?_, fun _ => by omega⟩
          · have harith : d + (k + 1) = d + 1 + k := by omega
            rw [harith]
            exact hinv3
          · intro h
            have := hfalse h
            simp [this]

theorem WFK_of_fields {env : KEnv V} {s s' : KState V}
    (hc : s'.chunk = s.chunk) (hp : s'.points = s.points)
    (hst : s'.stores = s.stores) (h : WFK env s) : WFK env s' :=
  ⟨h.axesNe, by rw [hp]; exact h.pointsWF, by rw [hc]; exact h.chunkWF,
    by rw [hst]; exact h.storesLen⟩

theorem KInv_of_fields {env : KEnv V} {allPoints : List (List V)} {d : Nat}
    {s s' : KState V} {Δ : List (Ev V)} (htr : s'.trace = s.trace ++ Δ)
    (hns : ∀ i, sinkPushes i Δ = []) (hnr : ∀ ch, resultPushes ch Δ = [])
    (hc : s'.chunk = s.chunk) (hp : s'.points = s.points)
    (h : KInv env allPoints d s) : KInv env allPoints d s' := by
  refine ⟨?_, by rw [hc, hp]; exact h.2⟩
  rw [htr]
  exact Delivered_append_neutral h.1 hns hnr

theorem kscanImplLoop_inv (env : KEnv V) (allPoints : List (List V)) :
    ∀ (fuel : Nat) (lc : Int) (s : KState V) (d : Nat),
      WFK env s → KInv env allPoints d s → d ≤ allPoints.length →
      allPoints.length - d < fuel →
      ∃ d', d ≤ d' ∧ d' ≤ allPoints.length ∧
        WFK env (kscanImplLoop env fuel lc s).1 ∧
        KInv env allPoints d' (kscanImplLoop env fuel lc s).1 ∧
        (kscanImplLoop env fuel lc s).2 ≠ KOutcome.fuelOut ∧
        ((kscanImplLoop env fuel lc s).2 = KOutcome.finished →
          d' = allPoints.length) ∧
        ((kscanImplLoop env fuel lc s).2 = KOutcome.paused → d < d')
  | 0, lc, s, d, hwf, hinv, hd, hfuel => absurd hfuel (by omega)
  | fuel + 1, lc, s, d, hwf, hinv, hd, hfuel => by
      rw [kscanImplLoop]
      cases hreq : kscanParamValuesChunk env s with
      | none =>
          have hempty :=
            (kscanParamValuesChunk_none_iff hwf.axesNe hwf.pointsWF
              hwf.chunkWF).mp hreq
          have hdlen : d = allPoints.length := by
            have h2 := hinv.2
            rw [hempty.1, hempty.2] at h2
            have h3 : allPoints.drop d = [] := by rw [← h2]; rfl
            rw [List.drop_eq_nil_iff] at h3
            omega
          refine ⟨d, Nat.le_refl _, hd, hwf, hinv, by simp, fun _ => hdlen, ?_⟩
          intro h
          cases h
      | some r =>
          obtain ⟨values, s1⟩ := r
          obtain ⟨hc1, hp1, hst1, htr1, hck1, hpq1, hhp1, -, hne1⟩ :=
            kscanParamValuesChunk_some hreq
          have hwf1 := kscanParamValuesChunk_WF hwf hreq
          have hinv1 : KInv env allPoints d s1 := by
            refine ⟨by rw [htr1]; exact hinv.1, ?_⟩
            rw [hc1, hp1]
            have hsplit : (s.chunk
                ++ List.take (CHUNK_SIZE - s.chunk.length) s.points)
                ++ List.drop (CHUNK_SIZE - s.chunk.length) s.points
                = s.chunk ++ s.points := by
              rw [List.append_assoc, List.take_append_drop]
            rw [hsplit]
            exact hinv.2
          obtain ⟨k, hk1, hk2, hwf2, hinv2, hfalse, htrue⟩ :=
            kscanProcessPoints_inv env allPoints s1.chunk [] lc s1 d hwf1 hinv1
              (by simp) hd
          have hchunklen : 1 ≤ s1.chunk.length := by
            cases hcs : s1.chunk with
            | nil => exact absurd hcs hne1
            | cons a l => simp [hcs]
          cases hpz : (kscanProcessPoints env s1.chunk lc s1).2.2 with
          | true =>
              simp only [hpz, if_true]
              have hk := htrue hpz
              refine ⟨d + k, by omega, hk2, hwf2, hinv2, by simp, ?_, ?_⟩
              · intro h
                simp at h
              · intro _
                omega
          | false =>
              simp only [hpz, Bool.false_eq_true, if_false]
              have hk := hfalse hpz
              have hklen : 1 ≤ k := by omega
              obtain ⟨d', hd1, hd2, hwf3, hinv3, hnf, hfin, hpau⟩ :=
                kscanImplLoop_inv env allPoints fuel
                  (kscanProcessPoints env s1.chunk lc s1).2.1
                  (kscanProcessPoints env s1.chunk lc s1).1
                  (d + k) hwf2 hinv2 hk2 (by omega)
              refine ⟨d', by omega, hd2, hwf3, hinv3, hnf, hfin, ?_⟩
              intro h
              have := hpau h
              omega

theorem kscanImpl_inv (env : KEnv V) (allPoints : List (List V))
    (fuel : Nat) (s : KState V) (d : Nat)
    (hwf : WFK env s) (hinv : KInv env allPoints d s)
    (hd : d ≤ allPoints.length) (hfuel : allPoints.length - d < fuel) :
    ∃ d', d ≤ d' ∧ d' ≤ allPoints.length ∧
      WFK env (kscanImpl env fuel s).1 ∧
      KInv env allPoints d' (kscanImpl env fuel s).1 ∧
      (kscanImpl env fuel s).2 ≠ KOutcome.fuelOut ∧
      ((kscanImpl env fuel s).2 = KOutcome.finished → d' = allPoints.length) ∧
      ((kscanImpl env fuel s).2 = KOutcome.paused → d < d') := by
  rw [kscanImpl]
  exact kscanImplLoop_inv env allPoints fuel (env.rtio s.clock)
    { s with clock := s.clock + 1 } d
    (@WFK_of_fields V env s { s with clock := s.clock + 1 } rfl rfl rfl hwf)
    (@KInv_of_fields V env allPoints d s { s with clock := s.clock + 1 } []
      (by simp) (fun i => rfl) (fun ch => rfl) rfl rfl hinv)
    hd hfuel

theorem kscanOuterLoop_inv (env : KEnv V) (allPoints : List (List V))
    (innerFuel : Nat) (hif : allPoints.length < innerFuel) :
    ∀ (fuel : Nat) (s : KState V) (d : Nat),
      WFK env s → KInv env allPoints d s → d ≤ allPoints.length →
      allPoints.length - d < fuel →
      ∃ d', d ≤ d' ∧ d' ≤ allPoints.length ∧
        WFK env (kscanOuterLoop env innerFuel fuel s).1 ∧
        KInv env allPoints d' (kscanOuterLoop env innerFuel fuel s).1 ∧
        (kscanOuterLoop env innerFuel fuel s).2 ≠ RunStatus.fuelOut ∧
        ((kscanOuterLoop env innerFuel fuel s).2 = RunStatus.completed →
          d' = allPoints.length) ∧
        ((kscanOuterLoop env innerFuel fuel s).2 = RunStatus.cancelled →
          ∃ m, env.terminate m = true)
  | 0, s, d, hwf, hinv, hd, hfuel => absurd hfuel (by omega)
  | fuel + 1, s, d, hwf, hinv, hd, hfuel => by
      rw [kscanOuterLoop]
      have hwfh : WFK env { s with trace := s.trace ++ [Ev.hostSetup] } :=
        @WFK_of_fields V env s { s with trace := s.trace ++ [Ev.hostSetup] }
          rfl rfl rfl hwf
      have hinvh : KInv env allPoints d
          { s with trace := s.trace ++ [Ev.hostSetup] } :=
        @KInv_of_fields V env allPoints d s
          { s with trace := s.trace ++ [Ev.hostSetup] } [Ev.hostSetup]
          rfl (by simp) (by simp) rfl rfl hinv
      obtain ⟨d', hd1, hd2, hwf2, hinv2, hnf, hfin, hpau⟩ :=
        kscanImpl_inv env allPoints innerFuel
          { s with trace := s.trace ++ [Ev.hostSetup] } d hwfh hinvh hd
          (by omega)
      cases hout : (kscanImpl env innerFuel
          { s with trace := s.trace ++ [Ev.hostSetup] }).2 with
      | finished =>
          simp only [hout]
          refine ⟨d', hd1, hd2, hwf2, hinv2, by simp, fun _ => hfin hout, ?_⟩
          intro h
          cases h
      | fuelOut => exact absurd hout hnf
      | paused =>
          simp only [hout]
          have hdlt := hpau hout
          have hwfp : WFK env { (kscanImpl env innerFuel
              { s with trace := s.trace ++ [Ev.hostSetup] }).1 with
              hostPauses := (kscanImpl env innerFuel
                { s with trace := s.trace ++ [Ev.hostSetup] }).1.hostPauses + 1,
              trace := (kscanImpl env innerFuel
                { s with trace := s.trace ++ [Ev.hostSetup] }).1.trace
                ++ [Ev.pauseBoundary] } :=
            @WFK_of_fields V env (kscanImpl env innerFuel
              { s with trace := s.trace ++ [Ev.hostSetup] }).1 _ rfl rfl rfl hwf2
          have hinvp : KInv env allPoints d' { (kscanImpl env innerFuel
              { s with trace := s.trace ++ [Ev.hostSetup] }).1 with
              hostPauses := (kscanImpl env innerFuel
                { s with trace := s.trace ++ [Ev.hostSetup] }).1.hostPauses + 1,
              trace := (kscanImpl env innerFuel
                { s with trace := s.trace ++ [Ev.hostSetup] }).1.trace
                ++ [Ev.pauseBoundary] } :=
            @KInv_of_fields V env allPoints d' (kscanImpl env innerFuel
              { s with trace := s.trace ++ [Ev.hostSetup] }).1 _
              [Ev.pauseBoundary] rfl (by simp) (by simp) rfl rfl hinv2
          cases hterm : env.terminate (kscanImpl env innerFuel
              { s with trace := s.trace ++ [Ev.hostSetup] }).1.hostPauses with
          | true =>
              simp only [hterm, if_true]
              refine ⟨d', hd1, hd2, hwfp, hinvp, by simp, ?_, ?_⟩
              · intro h
                cases h
              · intro _
                exact ⟨_, hterm⟩
          | false =>
              simp only [hterm, Bool.false_eq_true, if_false]
              obtain ⟨d'', he1, he2, hwf3, hinv3, hnf3, hfin3, hcan3⟩ :=
                kscanOuterLoop_inv env allPoints innerFuel hif fuel _ d'
                  hwfp hinvp hd2 (by omega)
              exact ⟨d'', by omega, he2, hwf3, hinv3, hnf3, hfin3, hcan3⟩

/-- Summary invariant for a whole core-device run started on a fresh state:
some prefix of length `d'` was delivered to every sink, completion means
the whole scan was delivered, and cancellation only happens when the
scheduler actually raised. -/
theorem runScanOnCoreDevice_inv (env : KEnv V) (allPoints : List (List V))
    (innerFuel outerFuel : Nat) (stores : List V) (hax : env.axes ≠ [])
    (hwfp : WFPoints env.axes allPoints)
    (hstores : stores.length = env.axes.length)
    (hif : allPoints.length < innerFuel) (hof : allPoints.length < outerFuel) :
    ∃ d', d' ≤ allPoints.length ∧
      (∀ i, sinkPushes i
          (runScanOnCoreDevice env innerFuel outerFuel
            (initKState allPoints stores)).1.trace
        = (allPoints.take d').filterMap fun p => p[i]?) ∧
      (∀ ch, resultPushes ch
          (runScanOnCoreDevice env innerFuel outerFuel
            (initKState allPoints stores)).1.trace
        = (allPoints.take d').flatMap fun p =>
            pushesFor ch (env.cb (coercePoint env.axes p))) ∧
      (runScanOnCoreDevice env innerFuel outerFuel
        (initKState allPoints stores)).2 ≠ RunStatus.fuelOut ∧
      ((runScanOnCoreDevice env innerFuel outerFuel
          (initKState allPoints stores)).2 = RunStatus.completed →
        d' = allPoints.length) ∧
      ((runScanOnCoreDevice env innerFuel outerFuel
          (initKState allPoints stores)).2 = RunStatus.cancelled →
        ∃ m, env.terminate m = true) := by
  have hwf0 : WFK env (initKState allPoints stores) :=
    ⟨hax, hwfp, fun p hp => absurd hp (by simp [initKState]), hstores⟩
  have hinv0 : KInv env allPoints 0 (initKState allPoints stores) :=
    ⟨⟨fun i => rfl, fun ch => rfl⟩, rfl⟩
  obtain ⟨htr, hcat, -, -, -, -, hwp, hwc, hsl, -, -⟩ :=
    kscanUpdateHostParamStores_spec env (initKState allPoints stores)
      hax hwfp hwf0.chunkWF hstores
  have hwf1 : WFK env
      (kscanUpdateHostParamStores env (initKState allPoints stores)) :=
    ⟨hax, hwp, hwc, hsl⟩
  have hinv1 : KInv env allPoints 0
      (kscanUpdateHostParamStores env (initKState allPoints stores)) := by
    refine ⟨by rw [htr]; exact hinv0.1, ?_⟩
    rw [hcat]
    exact hinv0.2
  obtain ⟨d', hd1, hd2, hwf2, hinv2, hnf, hfin, hcan⟩ :=
    kscanOuterLoop_inv env allPoints innerFuel hif outerFuel
      (kscanUpdateHostParamStores env (initKState allPoints stores)) 0
      hwf1 hinv1 (by omega) (by omega)
  exact ⟨d', hd2, hinv2.1.1, hinv2.1.2, hnf, hfin, hcan⟩

/-! ## Host-path trace characterization -/

theorem sinkPushes_hostPointEvents (i : Nat) (axes : List (ScanAxis V))
    (cb : List V → List (Nat × V)) (p : List V)
    (hlen : p.length = axes.length) :
    sinkPushes i (hostPointEvents axes cb p) = p[i]?.toList := by
  rw [hostPointEvents]
  simp only [sinkPushes_append, sinkPushes_cons, sinkPushes_resultEvents,
    sinkPushes_nil, List.nil_append, List.append_nil, Option.toList_none]
  rw [sinkPushes_hostApplyEvents i 0 axes p (by rw [hlen])]
  simp

theorem resultPushes_hostPointEvents (ch : Nat) (axes : List (ScanAxis V))
    (cb : List V → List (Nat × V)) (p : List V) :
    resultPushes ch (hostPointEvents axes cb p) = pushesFor ch (cb p) := by
  rw [hostPointEvents]
  simp only [resultPushes_append, resultPushes_cons,
    resultPushes_resultEvents, resultPushes_hostApplyEvents, resultPushes_nil,
    List.nil_append, List.append_nil, Option.toList_none]

theorem sinkPushes_hostFlatMap (i : Nat) (axes : List (ScanAxis V))
    (cb : List V → List (Nat × V)) :
    ∀ (ps : List (List V)), WFPoints axes ps →
      sinkPushes i (ps.flatMap (hostPointEvents axes cb))
        = ps.filterMap fun p => p[i]?
  | [], _ => rfl
  | p :: ps, hwf => by
      rw [List.flatMap_cons, sinkPushes_append,
        sinkPushes_hostPointEvents i axes cb p (hwf p (by simp)),
        sinkPushes_hostFlatMap i axes cb ps (fun q hq => hwf q (by simp [hq])),
        List.filterMap_cons]
      cases hpi : p[i]? <;> simp [hpi]

theorem resultPushes_hostFlatMap (ch : Nat) (axes : List (ScanAxis V))
    (cb : List V → List (Nat × V)) :
    ∀ (ps : List (List V)),
      resultPushes ch (ps.flatMap (hostPointEvents axes cb))
        = ps.flatMap fun p => pushesFor ch (cb p)
  | [] => rfl
  | p :: ps => by
      rw [List.flatMap_cons, resultPushes_append,
        resultPushes_hostPointEvents,
        resultPushes_hostFlatMap ch axes cb ps, List.flatMap_cons]

/-- Trace characterization of the host loop: a host run delivers the events
of the first `d` points, in order; completion means all of them, and
cancellation only happens when the scheduler raised at a boundary (and then
at least the current point was fully delivered). -/
theorem runScanOnHost_spec (axes : List (ScanAxis V))
    (cb : List V → List (Nat × V)) (term : Nat → Bool) :
    ∀ (k : Nat) (points : List (List V)),
      ∃ d, d ≤ points.length ∧
        (runScanOnHost axes cb term k points).1
          = (points.take d).flatMap (hostPointEvents axes cb) ∧
        ((runScanOnHost axes cb term k points).2 = RunStatus.completed →
          d = points.length) ∧
        ((runScanOnHost axes cb term k points).2 = RunStatus.cancelled →
          ∃ m, term m = true) ∧
        ((runScanOnHost axes cb term k points).2 = RunStatus.completed ∨
          (runScanOnHost axes cb term k points).2 = RunStatus.cancelled)
  | k, [] => by
      refine ⟨0, Nat.le_refl _, rfl, fun _ => rfl, ?_, Or.inl rfl⟩
      intro h
      exact absurd h (by simp [runScanOnHost])
  | k, p :: ps => by
      cases hterm : term k with
      | true =>
          have hres : runScanOnHost axes cb term k (p :: ps)
              = (hostPointEvents axes cb p, RunStatus.cancelled) := by
            rw [runScanOnHost]
            simp [hterm]
          rw [hres]
          refine ⟨1, by simp, ?_, ?_, fun _ => ⟨k, hterm⟩, Or.inr rfl⟩
          · show hostPointEvents axes cb p
              = ((p :: ps).take 1).flatMap (hostPointEvents axes cb)
            simp
          · intro h
            exact absurd h (by simp)
      | false =>
          have hres : runScanOnHost axes cb term k (p :: ps)
              = (hostPointEvents axes cb p
                  ++ (runScanOnHost axes cb term (k + 1) ps).1,
                 (runScanOnHost axes cb term (k + 1) ps).2) := by
            rw [runScanOnHost]
            simp [hterm]
          rw [hres]
          obtain ⟨d, hd1, hd2, hcom, hcan, hst⟩ :=
            runScanOnHost_spec axes cb term (k + 1) ps
          refine ⟨d + 1, by simp only [List.length_cons]; omega, ?_, ?_,
            hcan, hst⟩
          · rw [hd2, List.take_succ_cons, List.flatMap_cons]
          · intro h
            have := hcom h
            simp [this]

/-! ## Claim theorems -/

/-- **C1**: For every completed scan run (host path or chunked core-device
path), each axis's coordinate sink receives exactly one push per delivered
point, in the point order defined by the combinator's sequence, with no
duplicate and no out-of-order push to any sink: the final contents of the
coordinate sink of axis `i` are exactly the `i`-th coordinates of the scan
points, in sequence order. -/
theorem c1_each_sink_one_push_per_point_in_order :
    (∀ (V : Type) (axes : List (ScanAxis V)) (cb : List V → List (Nat × V))
        (points : List (List V)), WFPoints axes points →
      (runScanOnHost axes cb (fun _ => false) 0 points).2
          = RunStatus.completed ∧
      ∀ i, sinkPushes i (runScanOnHost axes cb (fun _ => false) 0 points).1
        = points.filterMap fun p => p[i]?) ∧
    (∀ (V : Type) (env : KEnv V) (points : List (List V))
        (innerFuel outerFuel : Nat) (stores : List V),
      env.axes ≠ [] → WFPoints env.axes points →
      stores.length = env.axes.length → (∀ m, env.terminate m = false) →
      points.length < innerFuel → points.length < outerFuel →
      (runScanOnCoreDevice env innerFuel outerFuel
        (initKState points stores)).2 = RunStatus.completed ∧
      ∀ i, sinkPushes i (runScanOnCoreDevice env innerFuel outerFuel
          (initKState points stores)).1.trace
        = points.filterMap fun p => p[i]?) := by
  constructor
  · intro V axes cb points hwf
    obtain ⟨d, hd1, hd2, hcom, hcan, hst⟩ :=
      runScanOnHost_spec axes cb (fun _ => false) 0 points
    have hstatus : (runScanOnHost axes cb (fun _ => false) 0 points).2
        = RunStatus.completed := by
      rcases hst with h | h
      · exact h
      · obtain ⟨m, hm⟩ := hcan h
        cases hm
    have hdlen := hcom hstatus
    refine ⟨hstatus, fun i => ?_⟩
    rw [hd2, hdlen, List.take_length,
      sinkPushes_hostFlatMap i axes cb points hwf]
  · intro V env points innerFuel outerFuel stores hax hwf hstl hterm hif hof
    obtain ⟨d', hdle, hsink, hres, hnf, hfin, hcan⟩ :=
      runScanOnCoreDevice_inv env points innerFuel outerFuel stores hax hwf
        hstl hif hof
    have hstatus : (runScanOnCoreDevice env innerFuel outerFuel
        (initKState points stores)).2 = RunStatus.completed := by
      cases hs : (runScanOnCoreDevice env innerFuel outerFuel
          (initKState points stores)).2 with
      | completed => rfl
      | cancelled =>
          obtain ⟨m, hm⟩ := hcan hs
          rw [hterm m] at hm
          cases hm
      | fuelOut => exact absurd hs hnf
    have hdlen := hfin hstatus
    refine ⟨hstatus, fun i => ?_⟩
    rw [hsink i, hdlen, List.take_length]

/-- Witness for C1 at a concrete two-point one-axis scan over `Int`: both
the host run and the core-device run complete with coordinate sink
contents `[0, 1]`. -/
theorem c1_each_sink_one_push_per_point_in_order_witness :
    (WFPoints [witnessAxis] ([[0], [1]] : List (List Int)) ∧
      ([[0], [1]] : List (List Int)).filterMap (fun p => p[0]?) = [0, 1]) ∧
    ((runScanOnHost [witnessAxis] witnessCb (fun _ => false) 0
        [[0], [1]]).2 = RunStatus.completed ∧
      ∀ i, sinkPushes i (runScanOnHost [witnessAxis] witnessCb
          (fun _ => false) 0 [[0], [1]]).1
        = [[0], [1]].filterMap fun p => p[i]?) ∧
    ((runScanOnCoreDevice witnessEnv 3 3
        (initKState [[0], [1]] [7])).2 = RunStatus.completed ∧
      ∀ i, sinkPushes i (runScanOnCoreDevice witnessEnv 3 3
          (initKState [[0], [1]] [7])).1.trace
        = [[0], [1]].filterMap fun p => p[i]?) := by
  have hwf : WFPoints [witnessAxis] ([[0], [1]] : List (List Int)) := by
    intro p hp
    simp only [List.mem_cons, List.not_mem_nil, or_false] at hp
    rcases hp with rfl | rfl <;> rfl
  refine ⟨⟨hwf, rfl⟩,
    c1_each_sink_one_push_per_point_in_order.1 Int [witnessAxis] witnessCb
      [[0], [1]] hwf,
    c1_each_sink_one_push_per_point_in_order.2 Int witnessEnv [[0], [1]] 3 3
      [7] (by simp [witnessEnv]) hwf rfl (fun m => rfl) (by decide)
      (by decide)⟩

/-- **C2 (counterexample to "strict")**: a host run of a one-point scan
cancelled at the suspension boundary after that point has the same sink
contents as the uninterrupted run — a prefix, but not a strict one.  The
original claim, which requires the cancelled contents to be a strict
prefix, is therefore false. -/
theorem c2_strict_prefix_counterexample :
    (runScanOnHost [witnessAxis] (fun _ => ([] : List (Nat × Int)))
        (fun _ => true) 0 [[5]]).2 = RunStatus.cancelled ∧
    sinkPushes 0 (runScanOnHost [witnessAxis]
        (fun _ => ([] : List (Nat × Int))) (fun _ => true) 0 [[5]]).1
      = sinkPushes 0 (runScanOnHost [witnessAxis]
        (fun _ => ([] : List (Nat × Int))) (fun _ => false) 0 [[5]]).1 ∧
    ¬ (sinkPushes 0 (runScanOnHost [witnessAxis]
        (fun _ => ([] : List (Nat × Int))) (fun _ => true) 0 [[5]]).1).length
      < (sinkPushes 0 (runScanOnHost [witnessAxis]
        (fun _ => ([] : List (Nat × Int))) (fun _ => false) 0 [[5]]).1).length := by
  refine ⟨rfl, rfl, ?_⟩
  decide

/-- **C2 (amended)**: For every run cancelled mid-scan (an external
termination signal observed at a suspension boundary), the contents of
every sink form a prefix — strict whenever undelivered points remained —
in point order, of the contents an uninterrupted run of the same spec
would have produced: there is a single count `d` of fully delivered points
such that every coordinate sink and every result sink holds exactly its
share of the first `d` points (no partial delivery, no skip, no
duplicate), and the uninterrupted run's contents extend them by the
remaining points. -/
theorem c2_cancellation_leaves_point_prefix :
    (∀ (V : Type) (axes : List (ScanAxis V)) (cb : List V → List (Nat × V))
        (term : Nat → Bool) (points : List (List V)),
      WFPoints axes points →
      (runScanOnHost axes cb term 0 points).2 = RunStatus.cancelled →
      ∃ d, d ≤ points.length ∧
        (∀ i, sinkPushes i (runScanOnHost axes cb term 0 points).1
          = (points.take d).filterMap fun p => p[i]?) ∧
        (∀ ch, resultPushes ch (runScanOnHost axes cb term 0 points).1
          = (points.take d).flatMap fun p => pushesFor ch (cb p)) ∧
        (∀ i, sinkPushes i (runScanOnHost axes cb (fun _ => false) 0 points).1
          = sinkPushes i (runScanOnHost axes cb term 0 points).1
            ++ (points.drop d).filterMap fun p => p[i]?) ∧
        (∀ ch, resultPushes ch
            (runScanOnHost axes cb (fun _ => false) 0 points).1
          = resultPushes ch (runScanOnHost axes cb term 0 points).1
            ++ (points.drop d).flatMap fun p => pushesFor ch (cb p))) ∧
    (∀ (V : Type) (env : KEnv V) (points : List (List V))
        (innerFuel outerFuel : Nat) (stores : List V),
      env.axes ≠ [] → WFPoints env.axes points →
      stores.length = env.axes.length →
      points.length < innerFuel → points.length < outerFuel →
      (runScanOnCoreDevice env innerFuel outerFuel
        (initKState points stores)).2 = RunStatus.cancelled →
      ∃ d, d ≤ points.length ∧
        (∀ i, sinkPushes i (runScanOnCoreDevice env innerFuel outerFuel
            (initKState points stores)).1.trace
          = (points.take d).filterMap fun p => p[i]?) ∧
        (∀ ch, resultPushes ch (runScanOnCoreDevice env innerFuel outerFuel
            (initKState points stores)).1.trace
          = (points.take d).flatMap fun p =>
              pushesFor ch (env.cb (coercePoint env.axes p))) ∧
        (∀ i, sinkPushes i
            (runScanOnCoreDevice { env with terminate := fun _ => false }
              innerFuel outerFuel (initKState points stores)).1.trace
          = sinkPushes i (runScanOnCoreDevice env innerFuel outerFuel
              (initKState points stores)).1.trace
            ++ (points.drop d).filterMap fun p => p[i]?) ∧
        (∀ ch, resultPushes ch
            (runScanOnCoreDevice { env with terminate := fun _ => false }
              innerFuel outerFuel (initKState points stores)).1.trace
          = resultPushes ch (runScanOnCoreDevice env innerFuel outerFuel
              (initKState points stores)).1.trace
            ++ (points.drop d).flatMap fun p =>
                pushesFor ch (env.cb (coercePoint env.axes p)))) := by
  constructor
  · intro V axes cb term points hwf hcancel
    obtain ⟨d, hd1, hd2, hcom, hcan, hst⟩ :=
      runScanOnHost_spec axes cb term 0 points
    obtain ⟨df, hdf1, hdf2, hdfcom, hdfcan, hdfst⟩ :=
      runScanOnHost_spec axes cb (fun _ => false) 0 points
    have hdffull : df = points.length := by
      rcases hdfst with h | h
      · exact hdfcom h
      · obtain ⟨m, hm⟩ := hdfcan h
        cases hm
    have hwftake : WFPoints axes (points.take d) :=
      fun p hp => hwf p (List.mem_of_mem_take hp)
    refine ⟨d, hd1, ?_, ?_, ?_, ?_⟩
    · intro i
      rw [hd2, sinkPushes_hostFlatMap i axes cb (points.take d) hwftake]
    · intro ch
      rw [hd2, resultPushes_hostFlatMap ch axes cb (points.take d)]
    · intro i
      rw [hdf2, hdffull, List.take_length,
        sinkPushes_hostFlatMap i axes cb points hwf,
        hd2, sinkPushes_hostFlatMap i axes cb (points.take d) hwftake,
        ← List.filterMap_append, List.take_append_drop]
    · intro ch
      rw [hdf2, hdffull, List.take_length,
        resultPushes_hostFlatMap ch axes cb points,
        hd2, resultPushes_hostFlatMap ch axes cb (points.take d),
        ← List.flatMap_append, List.take_append_drop]
  · intro V env points innerFuel outerFuel stores hax hwf hstl hif hof hcancel
    obtain ⟨d, hdle, hsink, hres, hnf, hfin, hcan⟩ :=
      runScanOnCoreDevice_inv env points innerFuel outerFuel stores hax hwf
        hstl hif hof
    obtain ⟨df, hdfle, hdfsink, hdfres, hdfnf, hdffin, hdfcan⟩ :=
      runScanOnCoreDevice_inv { env with terminate := fun _ => false } points
        innerFuel outerFuel stores hax hwf hstl hif hof
    have hdffull : df = points.length := by
      apply hdffin
      cases hs : (runScanOnCoreDevice { env with terminate := fun _ => false }
          innerFuel outerFuel (initKState points stores)).2 with
      | completed => rfl
      | cancelled =>
          obtain ⟨m, hm⟩ := hdfcan hs
          cases hm
      | fuelOut => exact absurd hs hdfnf
    refine ⟨d, hdle, hsink, hres, ?_, ?_⟩
    · intro i
      rw [hdfsink i, hdffull, List.take_length, hsink i,
        ← List.filterMap_append, List.take_append_drop]
    · intro ch
      rw [hdfres ch, hdffull, List.take_length, hres ch,
        ← List.flatMap_append, List.take_append_drop]

/-- Witness for C2 at concrete cancelled runs: a host run of `[[5], [6]]`
cancelled at the first boundary, and a core-device run of `[[0], [1]]`
whose scheduler pauses and terminates after the first point. -/
theorem c2_cancellation_leaves_point_prefix_witness :
    ((runScanOnHost [witnessAxis] witnessCb (fun _ => true) 0
        [[5], [6]]).2 = RunStatus.cancelled ∧
      ∃ d, d ≤ ([[5], [6]] : List (List Int)).length ∧
        (∀ i, sinkPushes i (runScanOnHost [witnessAxis] witnessCb
            (fun _ => true) 0 [[5], [6]]).1
          = ([[5], [6]].take d).filterMap fun p => p[i]?) ∧
        (∀ ch, resultPushes ch (runScanOnHost [witnessAxis] witnessCb
            (fun _ => true) 0 [[5], [6]]).1
          = ([[5], [6]].take d).flatMap fun p => pushesFor ch (witnessCb p)) ∧
        (∀ i, sinkPushes i (runScanOnHost [witnessAxis] witnessCb
            (fun _ => false) 0 [[5], [6]]).1
          = sinkPushes i (runScanOnHost [witnessAxis] witnessCb
              (fun _ => true) 0 [[5], [6]]).1
            ++ ([[5], [6]].drop d).filterMap fun p => p[i]?) ∧
        (∀ ch, resultPushes ch (runScanOnHost [witnessAxis] witnessCb
            (fun _ => false) 0 [[5], [6]]).1
          = resultPushes ch (runScanOnHost [witnessAxis] witnessCb
              (fun _ => true) 0 [[5], [6]]).1
            ++ ([[5], [6]].drop d).flatMap fun p => pushesFor ch (witnessCb p))) ∧
    ((runScanOnCoreDevice { witnessEnv with
        shouldPause := fun _ => true, terminate := fun _ => true,
        interval := 0 } 3 3 (initKState [[0], [1]] [7])).2
      = RunStatus.cancelled ∧
      ∃ d, d ≤ ([[0], [1]] : List (List Int)).length ∧
        (∀ i, sinkPushes i (runScanOnCoreDevice { witnessEnv with
            shouldPause := fun _ => true, terminate := fun _ => true,
            interval := 0 } 3 3 (initKState [[0], [1]] [7])).1.trace
          = ([[0], [1]].take d).filterMap fun p => p[i]?)) := by
  have hwf5 : WFPoints [witnessAxis] ([[5], [6]] : List (List Int)) := by
    intro p hp
    simp only [List.mem_cons, List.not_mem_nil, or_false] at hp
    rcases hp with rfl | rfl <;> rfl
  have hwf0 : WFPoints [witnessAxis] ([[0], [1]] : List (List Int)) := by
    intro p hp
    simp only [List.mem_cons, List.not_mem_nil, or_false] at hp
    rcases hp with rfl | rfl <;> rfl
  have hchost : (runScanOnHost [witnessAxis] witnessCb (fun _ => true) 0
      [[5], [6]]).2 = RunStatus.cancelled := rfl
  have hck : (runScanOnCoreDevice { witnessEnv with
      shouldPause := fun _ => true, terminate := fun _ => true,
      interval := 0 } 3 3 (initKState [[0], [1]] [7])).2
      = RunStatus.cancelled := rfl
  refine ⟨⟨hchost,
    c2_cancellation_leaves_point_prefix.1 Int [witnessAxis] witnessCb
      (fun _ => true) [[5], [6]] hwf5 hchost⟩, hck, ?_⟩
  obtain ⟨d, hd1, hd2, -, -, -⟩ :=
    c2_cancellation_leaves_point_prefix.2 Int { witnessEnv with
      shouldPause := fun _ => true, terminate := fun _ => true,
      interval := 0 } [[0], [1]] 3 3 [7] (by simp [witnessEnv]) hwf0 rfl
      (by decide) (by decide) hck
  exact ⟨d, hd1, hd2⟩

theorem runOnce_not_mem_hostApplyEvents :
    ∀ (k : Nat) (axs : List (ScanAxis V)) (vs : List V),
      Ev.runOnce ∉ hostApplyEvents k axs vs
  | k, [], vs => by simp [hostApplyEvents]
  | k, _ :: _, [] => by simp [hostApplyEvents]
  | k, ax :: axs, v :: vs => by
      simp [hostApplyEvents, runOnce_not_mem_hostApplyEvents (k + 1) axs vs]

theorem hostPointEvents_reassoc (axes : List (ScanAxis V))
    (cb : List V → List (Nat × V)) (p : List V) :
    hostPointEvents axes cb p = hostApplyEvents 0 axes p
      ++ ([Ev.hostSetup, Ev.deviceSetup, Ev.runOnce]
        ++ resultEvents (cb p) ++ [Ev.pauseBoundary]) := by
  rw [hostPointEvents]
  simp [List.append_assoc]

/-- **C4 (counterexample)**: In a host run of a one-point, one-axis scan,
the axis value is pushed to its coordinate sink at trace position 1, and
no `run_once` event occurs before it; this refutes the claim that on the
host path no axis value is pushed before the callback for that point has
run. -/
theorem c4_push_before_callback_counterexample :
    (runScanOnHost [witnessAxis] (fun _ => ([] : List (Nat × Int)))
        (fun _ => false) 0 [[5]]).1
      = hostPointEvents [witnessAxis] (fun _ => ([] : List (Nat × Int)))
          [5] ∧
    (hostPointEvents [witnessAxis] (fun _ => ([] : List (Nat × Int)))
        [5])[1]? = some (Ev.pushSink 0 5) ∧
    ∀ n, n < 1 →
      (hostPointEvents [witnessAxis] (fun _ => ([] : List (Nat × Int)))
        [5])[n]? ≠ some Ev.runOnce := by
  refine ⟨?_, rfl, ?_⟩
  · show hostPointEvents [witnessAxis] (fun _ => ([] : List (Nat × Int)))
        [5] ++ ([] : List (Ev Int)) = _
    simp
  · intro n hn
    interval_cases n
    decide

/-- **C4 (amended)**: On the host execution path, for every point, the
point's axis values are applied to the parameter stores and pushed to
their sinks *before* the per-point callback runs: in the point's event
sequence every coordinate-sink push precedes the `run_once` event (and the
callback's result pushes follow it, preserving axis-then-result order);
delivery does not wait for callback completion. -/
theorem c4_host_pushes_precede_callback (V : Type)
    (axes : List (ScanAxis V)) (cb : List V → List (Nat × V)) (p : List V)
    (m n i : Nat) (v : V)
    (hm : (hostPointEvents axes cb p)[m]? = some (Ev.pushSink i v))
    (hn : (hostPointEvents axes cb p)[n]? = some Ev.runOnce) :
    m < n := by
  rw [hostPointEvents_reassoc] at hm hn
  have hmL : m < (hostApplyEvents 0 axes p).length := by
    by_contra hge
    push_neg at hge
    rw [List.getElem?_append_right hge] at hm
    have hmem := List.getElem?_mem hm
    simp [resultEvents] at hmem
  have hnL : ¬ n < (hostApplyEvents 0 axes p).length := by
    intro hlt
    rw [List.getElem?_append_left hlt] at hn
    exact runOnce_not_mem_hostApplyEvents 0 axes p (List.getElem?_mem hn)
  omega

/-- Witness for the amended C4: in the concrete one-point trace the push
sits at position 1 and `run_once` at position 4, and `1 < 4`. -/
theorem c4_host_pushes_precede_callback_witness :
    (hostPointEvents [witnessAxis] (fun _ => ([] : List (Nat × Int)))
        [5])[1]? = some (Ev.pushSink 0 5) ∧
    (hostPointEvents [witnessAxis] (fun _ => ([] : List (Nat × Int)))
        [5])[4]? = some Ev.runOnce ∧
    1 < 4 :=
  ⟨rfl, rfl,
    c4_host_pushes_precede_callback Int [witnessAxis]
      (fun _ => ([] : List (Nat × Int))) [5] 1 4 0 5 rfl rfl⟩

/-- **C5**: On the chunked path, after every chunk-buffer-changing
operation — the initial priming call of `_kscan_update_host_param_stores`
and each point-completion acknowledgment — the host-side parameter stores
hold exactly the values of the next as-yet-undelivered point, i.e. the
current chunk head; if the buffer is empty a new chunk is eagerly primed
from the point iterator before reading the head, and if the scan is
exhausted the stores are left unchanged. -/
theorem c5_host_stores_track_chunk_head (V : Type) (env : KEnv V)
    (s : KState V) (hwf : WFK env s) :
    (((s.chunk = [] ∧ s.points = []) →
        kscanUpdateHostParamStores env s = s) ∧
      (s.chunk ++ s.points ≠ [] → ∃ q qr,
        (kscanUpdateHostParamStores env s).chunk = q :: qr ∧
        (kscanUpdateHostParamStores env s).stores = q)) ∧
    ∀ p rest, s.chunk = p :: rest →
      ((rest = [] ∧ s.points = []) →
        (kscanPointCompleted env s).stores = s.stores) ∧
      (rest ++ s.points ≠ [] → ∃ q qr,
        (kscanPointCompleted env s).chunk = q :: qr ∧
        (kscanPointCompleted env s).stores = q) := by
  obtain ⟨-, -, -, -, -, -, -, -, -, hemp, hhead⟩ :=
    kscanUpdateHostParamStores_spec env s hwf.axesNe hwf.pointsWF
      hwf.chunkWF hwf.storesLen
  refine ⟨⟨hemp, hhead⟩, ?_⟩
  intro p rest hchunk
  obtain ⟨-, -, -, -, -, -, -, -, -, hemp2, hhead2⟩ :=
    kscanPointCompleted_spec env hwf.axesNe hwf.pointsWF hwf.chunkWF
      hwf.storesLen hchunk
  exact ⟨hemp2, hhead2⟩

/-- Witness for C5: priming a fresh two-point scan sets the stores to the
first point `[3]`, and completing that point advances them to `[4]`. -/
theorem c5_host_stores_track_chunk_head_witness :
    ((kscanUpdateHostParamStores witnessEnv
        (initKState [[3], [4]] [9])).stores = [3] ∧
      (kscanUpdateHostParamStores witnessEnv
        (initKState [[3], [4]] [9])).chunk = [[3], [4]]) ∧
    ((initKState ([[3], [4]] : List (List Int)) [9]).chunk ++
        (initKState [[3], [4]] [9]).points ≠ [] → ∃ q qr,
      (kscanUpdateHostParamStores witnessEnv
        (initKState [[3], [4]] [9])).chunk = q :: qr ∧
      (kscanUpdateHostParamStores witnessEnv
        (initKState [[3], [4]] [9])).stores = q) ∧
    (kscanPointCompleted witnessEnv (kscanUpdateHostParamStores witnessEnv
      (initKState [[3], [4]] [9]))).stores = [4] := by
  have hwf : WFK witnessEnv (initKState ([[3], [4]] : List (List Int)) [9]) := by
    refine ⟨by simp [witnessEnv], ?_, ?_, rfl⟩
    · intro p hp
      simp only [initKState, List.mem_cons, List.not_mem_nil, or_false] at hp
      rcases hp with rfl | rfl <;> rfl
    · intro p hp
      simp [initKState] at hp
  exact ⟨⟨rfl, rfl⟩,
    ((c5_host_stores_track_chunk_head Int witnessEnv
      (initKState [[3], [4]] [9]) hwf).1).2, rfl⟩

/-- **C6**: A chunk request made when the point iterator is exhausted and
the chunk buffer is empty — and only then — raises the internal exhaustion
signal `ScanFinished` (modelled as the `none` result of
`kscanParamValuesChunk`), and the signal is always caught inside the
runner and converted into normal loop termination: a run that is never
externally terminated ends with status `completed`, never with an error. -/
theorem c6_scan_finished_is_internal :
    (∀ (V : Type) (env : KEnv V) (s : KState V),
      env.axes ≠ [] → WFPoints env.axes s.points → WFPoints env.axes s.chunk →
      (kscanParamValuesChunk env s = none ↔ s.chunk = [] ∧ s.points = [])) ∧
    (∀ (V : Type) (env : KEnv V) (points : List (List V))
        (innerFuel outerFuel : Nat) (stores : List V),
      env.axes ≠ [] → WFPoints env.axes points →
      stores.length = env.axes.length → (∀ m, env.terminate m = false) →
      points.length < innerFuel → points.length < outerFuel →
      (runScanOnCoreDevice env innerFuel outerFuel
        (initKState points stores)).2 = RunStatus.completed) := by
  constructor
  · intro V env s hax hpts hch
    exact kscanParamValuesChunk_none_iff hax hpts hch
  · intro V env points innerFuel outerFuel stores hax hwf hstl hterm hif hof
    obtain ⟨d', hdle, hsink, hres, hnf, hfin, hcan⟩ :=
      runScanOnCoreDevice_inv env points innerFuel outerFuel stores hax hwf
        hstl hif hof
    cases hs : (runScanOnCoreDevice env innerFuel outerFuel
        (initKState points stores)).2 with
    | completed => rfl
    | cancelled =>
        obtain ⟨m, hm⟩ := hcan hs
        rw [hterm m] at hm
        cases hm
    | fuelOut => exact absurd hs hnf

/-- Witness for C6: on an exhausted empty state the chunk request signals
`ScanFinished`, and a two-point run (which hits exhaustion after its
points) nevertheless completes normally. -/
theorem c6_scan_finished_is_internal_witness :
    (kscanParamValuesChunk witnessEnv (initKState [] [])
        = none ↔ (initKState ([] : List (List Int)) []).chunk = [] ∧
          (initKState ([] : List (List Int)) []).points = []) ∧
    kscanParamValuesChunk witnessEnv (initKState [] []) = none ∧
    (runScanOnCoreDevice witnessEnv 3 3
      (initKState [[0], [1]] [7])).2 = RunStatus.completed := by
  have hwf0 : WFPoints witnessEnv.axes ([[0], [1]] : List (List Int)) := by
    intro p hp
    simp only [List.mem_cons, List.not_mem_nil, or_false] at hp
    rcases hp with rfl | rfl <;> rfl
  refine ⟨?_, rfl, ?_⟩
  · exact (c6_scan_finished_is_internal.1 Int witnessEnv (initKState [] [])
      (by simp [witnessEnv]) (fun p hp => by simp [initKState] at hp)
      (fun p hp => by simp [initKState] at hp))
  · exact c6_scan_finished_is_internal.2 Int witnessEnv [[0], [1]] 3 3 [7]
      (by simp [witnessEnv]) hwf0 rfl (fun m => rfl) (by decide) (by decide)

/-- **C7**: The chunked core-device path only has kernels for the
dimensionalities 1, 2 and 3 (`_kscan_impl_1..3`); starting a run whose
axis count is outside this finite set fails at scan start with the
unsupported-dimensionality error, before any point is executed, any axis
value applied, or any sink pushed — the resulting trace is empty and the
stores untouched. -/
theorem c7_unsupported_dimensionality_fails_at_start (V : Type)
    (env : KEnv V) (innerFuel outerFuel : Nat) (points : List (List V))
    (stores : List V) (h : ¬ env.axes.length ∈ kscanSupportedDims) :
    (runScanEntry env innerFuel outerFuel points stores).2
      = EntryResult.unsupported ∧
    (runScanEntry env innerFuel outerFuel points stores).1.trace = [] ∧
    (runScanEntry env innerFuel outerFuel points stores).1.stores = stores ∧
    kscanSupportedDims = [1, 2, 3] := by
  rw [runScanEntry]
  rw [if_neg h]
  exact ⟨rfl, rfl, rfl, rfl⟩

/-- Witness for C7: a four-axis environment is rejected with an empty
trace. -/
theorem c7_unsupported_dimensionality_fails_at_start_witness :
    ¬ ({ witnessEnv with axes := [witnessAxis, witnessAxis, witnessAxis,
        witnessAxis] } : KEnv Int).axes.length ∈ kscanSupportedDims ∧
    (runScanEntry { witnessEnv with axes := [witnessAxis, witnessAxis,
        witnessAxis, witnessAxis] } 3 3 [[0, 0, 0, 0]] [7, 7, 7, 7]).2
      = EntryResult.unsupported ∧
    (runScanEntry { witnessEnv with axes := [witnessAxis, witnessAxis,
        witnessAxis, witnessAxis] } 3 3 [[0, 0, 0, 0]] [7, 7, 7, 7]).1.trace
      = [] := by
  have h : ¬ ({ witnessEnv with axes := [witnessAxis, witnessAxis,
      witnessAxis, witnessAxis] } : KEnv Int).axes.length
      ∈ kscanSupportedDims := by
    simp [kscanSupportedDims]
  obtain ⟨h1, h2, -, -⟩ :=
    c7_unsupported_dimensionality_fails_at_start Int
      { witnessEnv with axes := [witnessAxis, witnessAxis, witnessAxis,
        witnessAxis] } 3 3 [[0, 0, 0, 0]] [7, 7, 7, 7] h
  exact ⟨h, h1, h2⟩

theorem filterAnalysesLoop_eq (ids : List (String × String)) :
    ∀ (l acc : List DefaultAnalysis),
      filterAnalysesLoop l ids acc = acc ++ l.filter fun a => a.hasData ids
  | [], acc => by simp [filterAnalysesLoop]
  | a :: l, acc => by
      rw [filterAnalysesLoop]
      cases h : a.hasData ids with
      | true =>
          rw [if_pos rfl, filterAnalysesLoop_eq ids l (acc ++ [a]),
            List.filter_cons, if_pos h, List.append_assoc]
          rfl
      | false =>
          rw [if_neg (by simp [h]), filterAnalysesLoop_eq ids l acc,
            List.filter_cons, if_neg (by simp [h])]

/-- **C9**: `filter_default_analyses` is a pure filter: it returns exactly
those analyses of the fragment's default-analysis list whose applicability
predicate holds for the scan's resolved axis identities (the
`(fqn, path)` pairs of the axes), preserving the original order — it
equals `List.filter`, is a sublist of the input, and every returned
analysis satisfies the predicate. -/
theorem c9_filter_default_analyses_is_pure_filter (V : Type)
    (analyses : List DefaultAnalysis) (axes : List (ScanAxis V)) :
    filter_default_analyses analyses axes
      = analyses.filter (fun a =>
          a.hasData (axes.map fun s => (s.fqn, s.path))) ∧
    List.Sublist (filter_default_analyses analyses axes) analyses ∧
    ∀ a ∈ filter_default_analyses analyses axes,
      a.hasData (axes.map fun s => (s.fqn, s.path)) = true := by
  have heq : filter_default_analyses analyses axes
      = analyses.filter (fun a =>
          a.hasData (axes.map fun s => (s.fqn, s.path))) := by
    rw [filter_default_analyses, filterAnalysesLoop_eq]
    rfl
  refine ⟨heq, by rw [heq]; exact List.filter_sublist analyses, ?_⟩
  intro a ha
  rw [heq] at ha
  exact (List.mem_filter.mp ha).2

theorem getElem?_filterMap_of_all_some {α β : Type} (f : α → Option β) :
    ∀ (l : List α), (∀ x ∈ l, (f x).isSome) →
      ∀ (i : Nat), (l.filterMap f)[i]? = (l[i]?).bind f
  | [], _, i => by simp
  | x :: l, h, i => by
      obtain ⟨b, hb⟩ := Option.isSome_iff_exists.mp (h x (by simp))
      cases i with
      | zero => simp [List.filterMap_cons, hb]
      | succ i =>
          rw [List.filterMap_cons, hb]
          simp only [List.getElem?_cons_succ]
          exact getElem?_filterMap_of_all_some f l
            (fun y hy => h y (by simp [hy])) i

theorem columnValues_getElem? (c : List (List V)) :
    ∀ (k : Nat) (axs : List (ScanAxis V)) (j : Nat),
      (columnValues c k axs)[j]?
        = axs[j]?.map fun ax => c.filterMap fun p => p[k + j]?.map ax.coerce
  | k, [], j => by simp [columnValues]
  | k, ax :: axs, 0 => by simp [columnValues]
  | k, ax :: axs, j + 1 => by
      simp only [columnValues, List.getElem?_cons_succ,
        columnValues_getElem? c (k + 1) axs j]
      have harith : k + 1 + j = k + (j + 1) := by omega
      rw [harith]

/-- **C10**: On the chunked core-device path, the per-axis value lists
handed to the kernel — and hence the values passed to the kernel parameter
setters — are the *coerced* values `axis.param_store.coerce(v)` of the
generated point values, while the values pushed to the coordinate sinks on
point completion are the *uncoerced* values from the chunk buffer; when
the coercion is not the identity the applied value therefore differs from
the sink-recorded value for the same point. -/
theorem c10_device_gets_coerced_sink_gets_raw (V : Type) (env : KEnv V)
    (s : KState V) (values : List (List V)) (s' : KState V) (hwf : WFK env s)
    (hreq : kscanParamValuesChunk env s = some (values, s')) :
    (∀ (j : Nat) (ax : ScanAxis V), env.axes[j]? = some ax →
      ∀ (i : Nat) (p : List V), s'.chunk[i]? = some p →
        (values[j]?.bind fun col => col[i]?) = p[j]?.map ax.coerce) ∧
    (∀ (p : List V) (rest : List (List V)), s'.chunk = p :: rest →
      ∀ (j : Nat), sinkPushes j (kscanPointCompleted env s').trace
        = sinkPushes j s'.trace ++ p[j]?.toList) ∧
    (∀ (j : Nat) (ax : ScanAxis V), env.axes[j]? = some ax →
      ∀ (i : Nat) (p : List V) (v : V), s'.chunk[i]? = some p →
        p[j]? = some v → ax.coerce v ≠ v →
        (values[j]?.bind fun col => col[i]?) ≠ some v) := by
  obtain ⟨hc1, hp1, hst1, htr1, -, -, -, hvals, -⟩ :=
    kscanParamValuesChunk_some hreq
  have hwf' := kscanParamValuesChunk_WF hwf hreq
  have hmain : ∀ (j : Nat) (ax : ScanAxis V), env.axes[j]? = some ax →
      ∀ (i : Nat) (p : List V), s'.chunk[i]? = some p →
        (values[j]?.bind fun col => col[i]?) = p[j]?.map ax.coerce := by
    intro j ax haj i p hip
    have hjlt : j < env.axes.length := by
      by_contra hge
      push_neg at hge
      rw [List.getElem?_eq_none hge] at haj
      cases haj
    have hsome : ∀ q ∈ s'.chunk, ((q : List V)[j]?.map ax.coerce).isSome := by
      intro q hq
      have hqlen := hwf'.chunkWF q hq
      rw [List.getElem?_eq_getElem (show j < q.length by
        rw [hqlen]; exact hjlt)]
      rfl
    rw [hvals, columnValues_getElem? s'.chunk 0 env.axes j, haj]
    show (s'.chunk.filterMap fun q => q[0 + j]?.map ax.coerce)[i]?
      = p[j]?.map ax.coerce
    rw [getElem?_filterMap_of_all_some _ s'.chunk (by
      intro q hq
      have := hsome q hq
      simpa using this) i, hip]
    simp
  refine ⟨hmain, ?_, ?_⟩
  · intro p rest hchunk j
    obtain ⟨htr2, -, -, -, -, -, -, -, -, -, -⟩ :=
      kscanPointCompleted_spec env hwf'.axesNe hwf'.pointsWF hwf'.chunkWF
        hwf'.storesLen hchunk
    have hplen : p.length = env.axes.length :=
      hwf'.chunkWF p (by rw [hchunk]; simp)
    rw [htr2, sinkPushes_append]
    simp only [sinkPushes_cons, List.nil_append, Option.toList_none]
    rw [sinkPushes_pushEvents j 0 p env.axes (by rw [hplen])]
    simp
  · intro j ax haj i p v hip hpj hne
    rw [hmain j ax haj i p hip, hpj]
    intro hcon
    rw [show Option.map ax.coerce (some v) = some (ax.coerce v) from rfl]
      at hcon
    exact hne (Option.some.inj hcon)

/-- Witness for C10: with the even-rounding coercion and point `[3]`, the
kernel is handed the applied value `2` while the sink receives the raw
`3`, and the two differ. -/
theorem c10_device_gets_coerced_sink_gets_raw_witness :
    kscanParamValuesChunk { witnessEnv with axes := [witnessAxisTrunc] }
        (initKState [[3]] [0])
      = some ([[2]], { points := [],
                       chunk := [[3]],
                       stores := [0],
                       trace := [],
                       clock := 0,
                       pauseQueries := 0,
                       hostPauses := 0 }) ∧
    (([[2]] : List (List Int))[0]?.bind fun col => col[0]?) = some 2 ∧
    (([[3]] : List (List Int))[0]?.bind fun p => p[0]?) = some 3 ∧
    (2 : Int) ≠ 3 ∧
    (∀ (j : Nat) (ax : ScanAxis Int), ({ witnessEnv with
        axes := [witnessAxisTrunc] } : KEnv Int).axes[j]? = some ax →
      ∀ (i : Nat) (p : List Int), ([[3]] : List (List Int))[i]? = some p →
        ((([[2]] : List (List Int))[j]?.bind fun col => col[i]?)
          = p[j]?.map ax.coerce)) := by
  have hwf : WFK { witnessEnv with axes := [witnessAxisTrunc] }
      (initKState ([[3]] : List (List Int)) [0]) := by
    refine ⟨by simp [witnessEnv], ?_, ?_, rfl⟩
    · intro p hp
      simp only [initKState, List.mem_cons, List.not_mem_nil, or_false] at hp
      rcases hp with rfl
      rfl
    · intro p hp
      simp [initKState] at hp
  have hreq : kscanParamValuesChunk { witnessEnv with
      axes := [witnessAxisTrunc] } (initKState [[3]] [0])
      = some ([[2]], { points := [],
                       chunk := [[3]],
                       stores := [0],
                       trace := [],
                       clock := 0,
                       pauseQueries := 0,
                       hostPauses := 0 }) :=
    rfl
  have hmain := (c10_device_gets_coerced_sink_gets_raw Int
    { witnessEnv with axes := [witnessAxisTrunc] } (initKState [[3]] [0])
    [[2]] { points := [],
            chunk := [[3]],
            stores := [0],
            trace := [],
            clock := 0,
            pauseQueries := 0,
            hostPauses := 0 } hwf hreq).1
  exact ⟨hreq, rfl, rfl, by decide, hmain⟩

/-! ## Trace-shape lemmas for the kernel operations (no well-formedness
needed) -/

theorem kscanSetStoresToChunkHead_trace (env : KEnv V) (s : KState V) :
    (kscanSetStoresToChunkHead env s).trace = s.trace ∧
    (kscanSetStoresToChunkHead env s).clock = s.clock ∧
    (kscanSetStoresToChunkHead env s).pauseQueries = s.pauseQueries ∧
    (kscanSetStoresToChunkHead env s).chunk = s.chunk ∧
    (kscanSetStoresToChunkHead env s).points = s.points := by
  rw [kscanSetStoresToChunkHead.eq_def]
  cases hh : s.chunk.head? <;> exact ⟨rfl, rfl, rfl, rfl, rfl⟩

theorem kscanUpdateHostParamStores_trace (env : KEnv V) (s : KState V) :
    (kscanUpdateHostParamStores env s).trace = s.trace ∧
    (kscanUpdateHostParamStores env s).clock = s.clock ∧
    (kscanUpdateHostParamStores env s).pauseQueries = s.pauseQueries ∧
    ∃ app, (kscanUpdateHostParamStores env s).chunk = s.chunk ++ app := by
  by_cases hc : s.chunk = []
  · cases hreq : kscanParamValuesChunk env s with
    | none =>
        rw [kscanUpdateHostParamStores_of_nil_none hc hreq]
        exact ⟨rfl, rfl, rfl, [], by simp⟩
    | some r =>
        obtain ⟨values, s1⟩ := r
        rw [kscanUpdateHostParamStores_of_nil_some hc hreq]
        obtain ⟨hc1, -, -, htr, hck, hpq, -, -, -⟩ :=
          kscanParamValuesChunk_some hreq
        obtain ⟨h1, h2, h3, h4, -⟩ := kscanSetStoresToChunkHead_trace env s1
        refine ⟨by rw [h1, htr], by rw [h2, hck], by rw [h3, hpq],
          s1.chunk, ?_⟩
        rw [h4, hc]
        rfl
  · obtain ⟨c, cr, hcc⟩ : ∃ c cr, s.chunk = c :: cr := by
      cases hq : s.chunk with
      | nil => exact absurd hq hc
      | cons a l => exact ⟨a, l, rfl⟩
    rw [kscanUpdateHostParamStores_of_cons hcc]
    exact ⟨rfl, rfl, rfl, [], by simp⟩

theorem kscanPointCompleted_trace (env : KEnv V) {s : KState V} {p : List V}
    {rest : List (List V)} (hchunk : s.chunk = p :: rest) :
    (kscanPointCompleted env s).trace
      = s.trace ++ Ev.pointAck :: pushEvents 0 p env.axes ∧
    (kscanPointCompleted env s).clock = s.clock ∧
    (kscanPointCompleted env s).pauseQueries = s.pauseQueries ∧
    ∃ app, (kscanPointCompleted env s).chunk = rest ++ app := by
  rw [kscanPointCompleted]
  simp only [hchunk]
  obtain ⟨h1, h2, h3, app, h4⟩ := kscanUpdateHostParamStores_trace env
    { s with chunk := rest,
             trace := s.trace ++ Ev.pointAck :: pushEvents 0 p env.axes }
  exact ⟨h1, h2, h3, app, h4⟩

theorem kscanProcessStep_trace (env : KEnv V) (p : List V) (lc : Int)
    (s : KState V) {rest2 : List (List V)} (hchunk : s.chunk = p :: rest2) :
    ∃ ck, (kscanProcessStep env p lc s).1.trace
        = s.trace ++ kscanPointSegment env p ck ∧
      (kscanProcessStep env p lc s).1.clock = s.clock + 1 ∧
      (∃ app, (kscanProcessStep env p lc s).1.chunk = rest2 ++ app) ∧
      ((ck = [] ∧ (kscanProcessStep env p lc s).2.1 = lc ∧
          (kscanProcessStep env p lc s).2.2 = false) ∨
        (ck = [Ev.checkPause (env.rtio s.clock)] ∧
          env.rtio s.clock - lc > env.interval ∧
          ((kscanProcessStep env p lc s).2.2 = false →
            (kscanProcessStep env p lc s).2.1 = env.rtio s.clock))) := by
  rw [kscanProcessStep]
  obtain ⟨htr, hck, hpq, app, hchunk2⟩ :=
    @kscanPointCompleted_trace V env
      { s with trace := s.trace ++ applyEvents 0 p env.axes
          ++ Ev.deviceSetup :: Ev.runOnce
            :: resultEvents (env.cb (coercePoint env.axes p)) }
      p rest2 hchunk
  rw [hck]
  split
  · dsimp only
    split
    · refine ⟨[Ev.checkPause (env.rtio s.clock)], ?_, ?_, ⟨app, hchunk2⟩,
        Or.inr ⟨rfl, by assumption, ?_⟩⟩
      · show (kscanPointCompleted env _).trace
            ++ [Ev.checkPause (env.rtio s.clock)] = _
        rw [htr, kscanPointSegment]
        simp [List.append_assoc]
      · simp [hck]
      · intro h
        cases h
    · refine ⟨[Ev.checkPause (env.rtio s.clock)], ?_, ?_, ⟨app, hchunk2⟩,
        Or.inr ⟨rfl, by assumption, fun _ => rfl⟩⟩
      · show (kscanPointCompleted env _).trace
            ++ [Ev.checkPause (env.rtio s.clock)] = _
        rw [htr, kscanPointSegment]
        simp [List.append_assoc]
      · simp [hck]
  · refine ⟨[], ?_, ?_, ⟨app, hchunk2⟩, Or.inl ⟨rfl, rfl, rfl⟩⟩
    · show (kscanPointCompleted env _).trace = _
      rw [htr, kscanPointSegment]
      simp [List.append_assoc]
    · simp [hck]

/-! ## Scan-predicate computations -/

theorem scanOK_append (ok : Bool → Ev V → Bool) :
    ∀ (t1 t2 : List (Ev V)) (b : Bool),
      scanOK ok b (t1 ++ t2)
        = (scanOK ok b t1 && scanOK ok (t1.foldl ackStep b) t2)
  | [], t2, b => by simp [scanOK]
  | e :: t1, t2, b => by
      rw [List.cons_append]
      show (ok b e && scanOK ok (ackStep b e) (t1 ++ t2)) = _
      rw [scanOK_append ok t1 t2 (ackStep b e)]
      show _ = (ok b e && scanOK ok (ackStep b e) t1
        && scanOK ok ((e :: t1).foldl ackStep b) t2)
      rw [List.foldl_cons, Bool.and_assoc]

theorem scanOK_applyEvents (ok : Bool → Ev V → Bool)
    (hok : ∀ (b : Bool) (i : Nat) (v : V), ok b (Ev.applyOnDevice i v) = true) :
    ∀ (k : Nat) (vs : List V) (axs : List (ScanAxis V)) (b : Bool),
      scanOK ok b (applyEvents k vs axs) = true
  | _, [], _, _ => rfl
  | _, _ :: _, [], _ => rfl
  | k, v :: vs, ax :: axs, b => by
      show (ok b (Ev.applyOnDevice k (ax.coerce v))
        && scanOK ok _ (applyEvents (k + 1) vs axs)) = true
      rw [hok, scanOK_applyEvents ok hok (k + 1) vs axs]
      rfl

theorem scanOK_resultEvents (ok : Bool → Ev V → Bool)
    (hok : ∀ (b : Bool) (c : Nat) (v : V), ok b (Ev.pushResult c v) = true)
    (l : List (Nat × V)) : ∀ (b : Bool), scanOK ok b (resultEvents l) = true := by
  induction l with
  | nil => intro b; rfl
  | cons q l ih =>
      intro b
      show (ok b (Ev.pushResult q.1 q.2) && scanOK ok _ (resultEvents l)) = true
      rw [hok, ih]
      rfl

theorem foldl_ackStep_resultEvents (l : List (Nat × V)) :
    ∀ (b : Bool), (resultEvents l).foldl ackStep b = b := by
  induction l with
  | nil => intro b; rfl
  | cons q l ih => intro b; exact ih b

theorem scanOK_pushEvents (ok : Bool → Ev V → Bool)
    (hok : ∀ (i : Nat) (v : V), ok true (Ev.pushSink i v) = true) :
    ∀ (k : Nat) (vs : List V) (axs : List (ScanAxis V)),
      scanOK ok true (pushEvents k vs axs) = true
  | _, [], _ => rfl
  | _, _ :: _, [] => rfl
  | k, v :: vs, ax :: axs => by
      show (ok true (Ev.pushSink k v)
        && scanOK ok (ackStep true (Ev.pushSink k v))
            (pushEvents (k + 1) vs axs)) = true
      rw [hok]
      show (true && scanOK ok true (pushEvents (k + 1) vs axs)) = true
      rw [scanOK_pushEvents ok hok (k + 1) vs axs]
      rfl

theorem foldl_ackStep_pushEvents :
    ∀ (k : Nat) (vs : List V) (axs : List (ScanAxis V)) (b : Bool),
      (pushEvents k vs axs).foldl ackStep b = b
  | _, [], _, _ => rfl
  | _, _ :: _, [], _ => rfl
  | k, v :: vs, ax :: axs, b =>
      foldl_ackStep_pushEvents (k + 1) vs axs b

theorem scanOK_checkList (ok : Bool → Ev V → Bool)
    (hok : ∀ (t : Int), ok true (Ev.checkPause t) = true) :
    ∀ (ck : List (Ev V)), (∀ e ∈ ck, ∃ t, e = Ev.checkPause t) →
      scanOK ok true ck = true
  | [], _ => rfl
  | e :: ck, h => by
      obtain ⟨t, rfl⟩ := h e (by simp)
      show (ok true (Ev.checkPause t) && scanOK ok true ck) = true
      rw [hok, scanOK_checkList ok hok ck (fun e he => h e (by simp [he]))]
      rfl

theorem foldl_ackStep_checkList :
    ∀ (ck : List (Ev V)), (∀ e ∈ ck, ∃ t, e = Ev.checkPause t) →
      ∀ (b : Bool), ck.foldl ackStep b = b
  | [], _, _ => rfl
  | e :: ck, h, b => by
      obtain ⟨t, rfl⟩ := h e (by simp)
      exact foldl_ackStep_checkList ck (fun e he => h e (by simp [he])) b

theorem scanOK_pointSegment (ok : Bool → Ev V → Bool)
    (hokApply : ∀ (b : Bool) (i : Nat) (v : V),
      ok b (Ev.applyOnDevice i v) = true)
    (hokResult : ∀ (b : Bool) (c : Nat) (v : V),
      ok b (Ev.pushResult c v) = true)
    (hokSetup : ∀ (b : Bool), ok b Ev.deviceSetup = true)
    (hokRun : ∀ (b : Bool), ok b Ev.runOnce = true)
    (hokAck : ∀ (b : Bool), ok b Ev.pointAck = true)
    (hokPush : ∀ (i : Nat) (v : V), ok true (Ev.pushSink i v) = true)
    (hokCheck : ∀ (t : Int), ok true (Ev.checkPause t) = true)
    (env : KEnv V) (p : List V) (ck : List (Ev V))
    (hck : ∀ e ∈ ck, ∃ t, e = Ev.checkPause t) (b : Bool) :
    scanOK ok b (kscanPointSegment env p ck) = true ∧
    (kscanPointSegment env p ck).foldl ackStep b = true := by
  rw [kscanPointSegment]
  constructor
  · rw [scanOK_append, scanOK_applyEvents ok hokApply]
    show (true && scanOK ok _ (Ev.deviceSetup :: Ev.runOnce
      :: (resultEvents (env.cb (coercePoint env.axes p))
        ++ Ev.pointAck :: (pushEvents 0 p env.axes ++ ck)))) = true
    rw [Bool.true_and]
    show (ok _ Ev.deviceSetup && scanOK ok false (Ev.runOnce
      :: (resultEvents (env.cb (coercePoint env.axes p))
        ++ Ev.pointAck :: (pushEvents 0 p env.axes ++ ck)))) = true
    rw [hokSetup]
    show (true && (ok false Ev.runOnce && scanOK ok false
      (resultEvents (env.cb (coercePoint env.axes p))
        ++ Ev.pointAck :: (pushEvents 0 p env.axes ++ ck)))) = true
    rw [hokRun, scanOK_append, scanOK_resultEvents ok hokResult,
      foldl_ackStep_resultEvents]
    show (true && (true && (true && (ok false Ev.pointAck
      && scanOK ok true (pushEvents 0 p env.axes ++ ck))))) = true
    rw [hokAck, scanOK_append, scanOK_pushEvents ok hokPush,
      foldl_ackStep_pushEvents, scanOK_checkList ok hokCheck ck hck]
    rfl
  · rw [List.foldl_append]
    show (Ev.deviceSetup :: Ev.runOnce
      :: (resultEvents (env.cb (coercePoint env.axes p))
        ++ Ev.pointAck :: (pushEvents 0 p env.axes ++ ck))).foldl ackStep _
      = true
    show (resultEvents (env.cb (coercePoint env.axes p))
      ++ Ev.pointAck :: (pushEvents 0 p env.axes ++ ck)).foldl ackStep false
      = true
    rw [List.foldl_append, foldl_ackStep_resultEvents]
    show (pushEvents 0 p env.axes ++ ck).foldl ackStep true = true
    rw [List.foldl_append, foldl_ackStep_pushEvents]
    exact foldl_ackStep_checkList ck hck true

theorem checkTimes_pointSegment (env : KEnv V) (p : List V)
    (ck : List (Ev V)) :
    checkTimes (kscanPointSegment env p ck) = checkTimes ck := by
  rw [kscanPointSegment]
  simp only [checkTimes_append, checkTimes_cons, checkTimes_applyEvents,
    checkTimes_resultEvents, checkTimes_pushEvents, Option.toList_none,
    List.nil_append, List.append_nil]

theorem cons_getLast?_eq (a : Int) (l : List Int) :
    (a :: l).getLast? = some (l.getLast?.getD a) := by
  rw [show a :: l = [a] ++ l from rfl, List.getLast?_append]
  cases h : l.getLast? <;> rfl

theorem chain'_cons_append_of_getLast {R : Int → Int → Prop} (a : Int)
    (l1 l2 : List Int) (h1 : List.Chain' R (a :: l1))
    (h2 : List.Chain' R (l1.getLast?.getD a :: l2)) :
    List.Chain' R (a :: (l1 ++ l2)) := by
  rw [show a :: (l1 ++ l2) = (a :: l1) ++ l2 from rfl, List.chain'_append]
  refine ⟨h1, (List.chain'_cons'.mp h2).2, ?_⟩
  intro x hx y hy
  rw [cons_getLast?_eq] at hx
  simp only [Option.mem_def, Option.some_inj] at hx
  subst hx
  exact (List.chain'_cons'.mp h2).1 y hy

theorem kscanProcessPoints_traceOK (env : KEnv V) :
    ∀ (remaining ext : List (List V)) (lc : Int) (s : KState V),
      s.chunk = remaining ++ ext →
      ∃ Δ, (kscanProcessPoints env remaining lc s).1.trace = s.trace ++ Δ ∧
        (∀ b, scanOK okPushAfterAck b Δ = true) ∧
        (∀ b, scanOK okCheckAfterAck b Δ = true) ∧
        List.Chain' (fun a c => c - a > env.interval) (lc :: checkTimes Δ) ∧
        (∀ t ∈ checkTimes Δ, ∃ j, s.clock ≤ j ∧
          j < (kscanProcessPoints env remaining lc s).1.clock ∧
          t = env.rtio j) ∧
        s.clock ≤ (kscanProcessPoints env remaining lc s).1.clock ∧
        ((kscanProcessPoints env remaining lc s).2.2 = false →
          (kscanProcessPoints env remaining lc s).2.1
            = (checkTimes Δ).getLast?.getD lc)
  | [], ext, lc, s, hchunk =>
      ⟨[], by simp [kscanProcessPoints], fun b => rfl, fun b => rfl, List.chain'_singleton lc,
        by simp, Nat.le_refl _, fun _ => rfl⟩
  | p :: rest, ext, lc, s, hchunk => by
      have hchunk2 : s.chunk = p :: (rest ++ ext) := by rw [hchunk]; rfl
      obtain ⟨ck, htr, hclk, ⟨app, hchunkS⟩, hbr⟩ :=
        kscanProcessStep_trace env p lc s hchunk2
      have hckshape : ∀ e ∈ ck, ∃ t, e = Ev.checkPause t := by
        rcases hbr with ⟨rfl, -, -⟩ | ⟨rfl, -, -⟩
        · intro e he
          simp at he
        · intro e he
          simp only [List.mem_cons, List.not_mem_nil, or_false] at he
          exact ⟨env.rtio s.clock, he⟩
      have hsegPush := fun b => scanOK_pointSegment okPushAfterAck
        (fun _ _ _ => rfl) (fun _ _ _ => rfl) (fun _ => rfl) (fun _ => rfl)
        (fun _ => rfl) (fun _ _ => rfl) (fun _ => rfl) env p ck hckshape b
      have hsegCheck := fun b => scanOK_pointSegment okCheckAfterAck
        (fun _ _ _ => rfl) (fun _ _ _ => rfl) (fun _ => rfl) (fun _ => rfl)
        (fun _ => rfl) (fun _ _ => rfl) (fun _ => rfl) env p ck hckshape b
      rw [kscanProcessPoints]
      cases hpz : (kscanProcessStep env p lc s).2.2 with
      | true =>
          simp only [hpz, if_true]
          refine ⟨kscanPointSegment env p ck, htr, fun b => (hsegPush b).1,
            fun b => (hsegCheck b).1, ?_, ?_, by rw [hclk]; omega, ?_⟩
          · rw [checkTimes_pointSegment]
            rcases hbr with ⟨rfl, -, -⟩ | ⟨rfl, hgap, -⟩
            · exact List.chain'_singleton lc
            · refine List.chain'_cons'.mpr ⟨?_, List.chain'_singleton _⟩
              intro y hy
              simp only [checkTimes_cons, checkTimes_nil, List.append_nil,
                Option.toList_some, List.head?_cons, Option.mem_def,
                Option.some_inj] at hy
              rw [hy] at hgap
              exact hgap
          · intro t ht
            rw [checkTimes_pointSegment] at ht
            rcases hbr with ⟨rfl, -, -⟩ | ⟨rfl, -, -⟩
            · simp at ht
            · simp only [checkTimes_cons, checkTimes_nil, List.append_nil,
                Option.toList_some, List.mem_singleton] at ht
              exact ⟨s.clock, Nat.le_refl _, by rw [hclk]; omega, ht⟩
          · intro h
            simp at h
      | false =>
          simp only [hpz, Bool.false_eq_true, if_false]
          obtain ⟨Δih, htr2, hpush2, hcheck2, hchain2, hidx2, hclk2, hout2⟩ :=
            kscanProcessPoints_traceOK env rest (ext ++ app)
              (kscanProcessStep env p lc s).2.1
              (kscanProcessStep env p lc s).1
              (by rw [hchunkS, List.append_assoc])
          refine ⟨kscanPointSegment env p ck ++ Δih, ?_, ?_, ?_, ?_, ?_, ?_, ?_⟩
          · rw [htr2, htr, List.append_assoc]
          · intro b
            rw [scanOK_append, (hsegPush b).1, (hsegPush b).2, hpush2 true]
            rfl
          · intro b
            rw [scanOK_append, (hsegCheck b).1, (hsegCheck b).2, hcheck2 true]
            rfl
          · rw [checkTimes_append, checkTimes_pointSegment]
            rcases hbr with ⟨rfl, hlc, -⟩ | ⟨rfl, hgap, hlc⟩
            · rw [hlc] at hchain2
              simpa using hchain2
            · rw [hlc hpz] at hchain2
              simp only [checkTimes_cons, checkTimes_nil, List.append_nil,
                Option.toList_some]
              show List.Chain' _ (lc :: env.rtio s.clock :: checkTimes Δih)
              refine List.chain'_cons'.mpr ⟨?_, hchain2⟩
              intro y hy
              simp only [List.head?_cons, Option.mem_def,
                Option.some_inj] at hy
              rw [hy] at hgap
              exact hgap
          · intro t ht
            rw [checkTimes_append, checkTimes_pointSegment] at ht
            rcases List.mem_append.mp ht with h1 | h2
            · rcases hbr with ⟨rfl, -, -⟩ | ⟨rfl, -, -⟩
              · simp at h1
              · simp only [checkTimes_cons, checkTimes_nil, List.append_nil,
                  Option.toList_some, List.mem_singleton] at h1
                refine ⟨s.clock, Nat.le_refl _, ?_, h1⟩
                have := hclk2
                rw [hclk] at this
                omega
            · obtain ⟨j, hj1, hj2, hj3⟩ := hidx2 t h2
              refine ⟨j, ?_, hj2, hj3⟩
              rw [hclk] at hj1
              omega
          · have := hclk2
            rw [hclk] at this
            omega
          · intro hfalse
            rw [hout2 hfalse, checkTimes_append, checkTimes_pointSegment]
            rcases hbr with ⟨rfl, hlc, -⟩ | ⟨rfl, -, hlc⟩
            · rw [hlc]
              simp
            · rw [hlc hpz]
              simp only [checkTimes_cons, checkTimes_nil, List.append_nil,
                Option.toList_some]
              show _ = ((env.rtio s.clock :: checkTimes Δih)).getLast?.getD lc
              rw [cons_getLast?_eq]
              rfl

theorem kscanImplLoop_traceOK (env : KEnv V) :
    ∀ (fuel : Nat) (lc : Int) (s : KState V),
      ∃ Δ, (kscanImplLoop env fuel lc s).1.trace = s.trace ++ Δ ∧
        (∀ b, scanOK okPushAfterAck b Δ = true) ∧
        (∀ b, scanOK okCheckAfterAck b Δ = true) ∧
        List.Chain' (fun a c => c - a > env.interval) (lc :: checkTimes Δ) ∧
        (∀ t ∈ checkTimes Δ, ∃ j, s.clock ≤ j ∧
          j < (kscanImplLoop env fuel lc s).1.clock ∧ t = env.rtio j) ∧
        s.clock ≤ (kscanImplLoop env fuel lc s).1.clock
  | 0, lc, s =>
      ⟨[], by simp [kscanImplLoop], fun b => rfl, fun b => rfl,
        List.chain'_singleton lc, by simp, Nat.le_refl _⟩
  | fuel + 1, lc, s => by
      rw [kscanImplLoop]
      cases hreq : kscanParamValuesChunk env s with
      | none =>
          exact ⟨[], by simp, fun b => rfl, fun b => rfl,
            List.chain'_singleton lc, by simp, Nat.le_refl _⟩
      | some r =>
          obtain ⟨values, s1⟩ := r
          obtain ⟨-, -, -, htr1, hck1, -, -, -, -⟩ :=
            kscanParamValuesChunk_some hreq
          obtain ⟨Δp, htrp, hpushp, hcheckp, hchainp, hidxp, hclkp, houtp⟩ :=
            kscanProcessPoints_traceOK env s1.chunk [] lc s1 (by simp)
          cases hpz : (kscanProcessPoints env s1.chunk lc s1).2.2 with
          | true =>
              simp only [hpz, if_true]
              refine ⟨Δp, by rw [htrp, htr1], hpushp, hcheckp, hchainp,
                ?_, ?_⟩
              · intro t ht
                obtain ⟨j, hj1, hj2, hj3⟩ := hidxp t ht
                rw [hck1] at hj1
                exact ⟨j, hj1, hj2, hj3⟩
              · rw [← hck1]
                exact hclkp
          | false =>
              simp only [hpz, Bool.false_eq_true, if_false]
              obtain ⟨Δr, htrr, hpushr, hcheckr, hchainr, hidxr, hclkr⟩ :=
                kscanImplLoop_traceOK env fuel
                  (kscanProcessPoints env s1.chunk lc s1).2.1
                  (kscanProcessPoints env s1.chunk lc s1).1
              refine ⟨Δp ++ Δr, ?_, ?_, ?_, ?_, ?_, ?_⟩
              · rw [htrr, htrp, htr1, List.append_assoc]
              · intro b
                rw [scanOK_append]
                cases hfold : (Δp.foldl ackStep b) <;>
                  rw [hpushp b, hpushr _] <;> rfl
              · intro b
                rw [scanOK_append]
                cases hfold : (Δp.foldl ackStep b) <;>
                  rw [hcheckp b, hcheckr _] <;> rfl
              · rw [checkTimes_append]
                refine chain'_cons_append_of_getLast lc _ _ hchainp ?_
                rw [← houtp hpz]
                exact hchainr
              · intro t ht
                rw [checkTimes_append] at ht
                rcases List.mem_append.mp ht with h1 | h2
                · obtain ⟨j, hj1, hj2, hj3⟩ := hidxp t h1
                  rw [hck1] at hj1
                  exact ⟨j, hj1, by omega, hj3⟩
                · obtain ⟨j, hj1, hj2, hj3⟩ := hidxr t h2
                  refine ⟨j, ?_, hj2, hj3⟩
                  rw [hck1] at hclkp
                  omega
              · rw [hck1] at hclkp
                omega

theorem checkTimes_hostSetup_cons (tr : List (Ev V)) :
    checkTimes (Ev.hostSetup :: tr) = checkTimes tr := by
  simp

theorem checkTimes_pauseBoundary_cons (tr : List (Ev V)) :
    checkTimes (Ev.pauseBoundary :: tr) = checkTimes tr := by
  simp

theorem kscanImpl_traceOK (env : KEnv V) (fuel : Nat) (s : KState V) :
    ∃ Δ, (kscanImpl env fuel s).1.trace = s.trace ++ Δ ∧
      (∀ b, scanOK okPushAfterAck b Δ = true) ∧
      (∀ b, scanOK okCheckAfterAck b Δ = true) ∧
      List.Chain' (fun a c => c - a > env.interval)
        (env.rtio s.clock :: checkTimes Δ) ∧
      (∀ t ∈ checkTimes Δ, ∃ j, s.clock ≤ j ∧
        j < (kscanImpl env fuel s).1.clock ∧ t = env.rtio j) ∧
      s.clock ≤ (kscanImpl env fuel s).1.clock := by
  rw [kscanImpl]
  obtain ⟨Δ, htr, hpush, hcheck, hchain, hidx, hclk⟩ :=
    kscanImplLoop_traceOK env fuel (env.rtio s.clock)
      { s with clock := s.clock + 1 }
  dsimp only at htr hidx hclk
  refine ⟨Δ, htr, hpush, hcheck, hchain, ?_, by omega⟩
  intro t ht
  obtain ⟨j, hj1, hj2, hj3⟩ := hidx t ht
  exact ⟨j, by omega, hj2, hj3⟩

theorem kscanOuterLoop_traceOK (env : KEnv V)
    (hmono : ∀ (a b : Nat), a ≤ b → env.rtio a ≤ env.rtio b)
    (innerFuel : Nat) :
    ∀ (fuel : Nat) (s : KState V),
      ∃ Δ, (kscanOuterLoop env innerFuel fuel s).1.trace = s.trace ++ Δ ∧
        (∀ b, scanOK okPushAfterAck b Δ = true) ∧
        (∀ b, scanOK okCheckAfterAck b Δ = true) ∧
        List.Chain' (fun a c => c - a > env.interval) (checkTimes Δ) ∧
        (∀ y ∈ (checkTimes Δ).head?, ∃ j, s.clock ≤ j ∧
          y - env.rtio j > env.interval) ∧
        (∀ t ∈ checkTimes Δ, ∃ j, s.clock ≤ j ∧
          j < (kscanOuterLoop env innerFuel fuel s).1.clock ∧
          t = env.rtio j) ∧
        s.clock ≤ (kscanOuterLoop env innerFuel fuel s).1.clock
  | 0, s =>
      ⟨[], by simp [kscanOuterLoop], fun b => rfl, fun b => rfl,
        List.chain'_nil, by simp, by simp, Nat.le_refl _⟩
  | fuel + 1, s => by
      rw [kscanOuterLoop]
      obtain ⟨Δi, htri, hpushi, hchecki, hchaini, hidxi, hclki⟩ :=
        kscanImpl_traceOK env innerFuel
          { s with trace := s.trace ++ [Ev.hostSetup] }
      dsimp only at htri hchaini hidxi hclki
      cases hout : (kscanImpl env innerFuel
          { s with trace := s.trace ++ [Ev.hostSetup] }).2 with
      | finished =>
          simp only [hout]
          refine ⟨Ev.hostSetup :: Δi, ?_, ?_, ?_, ?_, ?_, ?_, hclki⟩
          · rw [htri]
            simp only [List.append_assoc, List.singleton_append, List.cons_append, List.nil_append]
          · intro b
            show (true && scanOK okPushAfterAck b Δi) = true
            rw [hpushi b]
            rfl
          · intro b
            show (true && scanOK okCheckAfterAck b Δi) = true
            rw [hchecki b]
            rfl
          · rw [checkTimes_hostSetup_cons]
            exact (List.chain'_cons'.mp hchaini).2
          · intro y hy
            rw [checkTimes_hostSetup_cons] at hy
            exact ⟨s.clock, Nat.le_refl _,
              (List.chain'_cons'.mp hchaini).1 y hy⟩
          · intro t ht
            rw [checkTimes_hostSetup_cons] at ht
            exact hidxi t ht
      | fuelOut =>
          simp only [hout]
          refine ⟨Ev.hostSetup :: Δi, ?_, ?_, ?_, ?_, ?_, ?_, hclki⟩
          · rw [htri]
            simp only [List.append_assoc, List.singleton_append, List.cons_append, List.nil_append]
          · intro b
            show (true && scanOK okPushAfterAck b Δi) = true
            rw [hpushi b]
            rfl
          · intro b
            show (true && scanOK okCheckAfterAck b Δi) = true
            rw [hchecki b]
            rfl
          · rw [checkTimes_hostSetup_cons]
            exact (List.chain'_cons'.mp hchaini).2
          · intro y hy
            rw [checkTimes_hostSetup_cons] at hy
            exact ⟨s.clock, Nat.le_refl _,
              (List.chain'_cons'.mp hchaini).1 y hy⟩
          · intro t ht
            rw [checkTimes_hostSetup_cons] at ht
            exact hidxi t ht
      | paused =>
          simp only [hout]
          cases hterm : env.terminate (kscanImpl env innerFuel
              { s with trace := s.trace ++ [Ev.hostSetup] }).1.hostPauses with
          | true =>
              simp only [hterm, if_true]
              refine ⟨Ev.hostSetup :: (Δi ++ [Ev.pauseBoundary]), ?_, ?_, ?_,
                ?_, ?_, ?_, ?_⟩
              · show (kscanImpl env innerFuel
                    { s with trace := s.trace ++ [Ev.hostSetup] }).1.trace
                    ++ [Ev.pauseBoundary] = _
                rw [htri]
                simp only [List.append_assoc, List.singleton_append, List.cons_append, List.nil_append]
              · intro b
                show (true && scanOK okPushAfterAck b
                  (Δi ++ [Ev.pauseBoundary])) = true
                rw [scanOK_append, hpushi b]
                cases Δi.foldl ackStep b <;> rfl
              · intro b
                show (true && scanOK okCheckAfterAck b
                  (Δi ++ [Ev.pauseBoundary])) = true
                rw [scanOK_append, hchecki b]
                cases Δi.foldl ackStep b <;> rfl
              · rw [checkTimes_hostSetup_cons, checkTimes_append]
                simpa using (List.chain'_cons'.mp hchaini).2
              · intro y hy
                rw [checkTimes_hostSetup_cons, checkTimes_append,
                  checkTimes_pauseBoundary_cons, checkTimes_nil,
                  List.append_nil] at hy
                exact ⟨s.clock, Nat.le_refl _,
                  (List.chain'_cons'.mp hchaini).1 y hy⟩
              · intro t ht
                rw [checkTimes_hostSetup_cons, checkTimes_append,
                  checkTimes_pauseBoundary_cons, checkTimes_nil,
                  List.append_nil] at ht
                obtain ⟨j, hj1, hj2, hj3⟩ := hidxi t ht
                exact ⟨j, hj1, hj2, hj3⟩
              · exact hclki
          | false =>
              simp only [hterm, Bool.false_eq_true, if_false]
              obtain ⟨Δr, htrr, hpushr, hcheckr, hchainr, hheadr, hidxr,
                hclkr⟩ :=
                kscanOuterLoop_traceOK env hmono innerFuel fuel
                  { (kscanImpl env innerFuel
                      { s with trace := s.trace ++ [Ev.hostSetup] }).1 with
                    hostPauses := (kscanImpl env innerFuel
                      { s with trace := s.trace ++ [Ev.hostSetup] }).1.hostPauses
                        + 1,
                    trace := (kscanImpl env innerFuel
                      { s with trace := s.trace ++ [Ev.hostSetup] }).1.trace
                        ++ [Ev.pauseBoundary] }
              dsimp only at htrr hheadr hidxr hclkr
              refine ⟨Ev.hostSetup :: (Δi ++ Ev.pauseBoundary :: Δr), ?_,
                ?_, ?_, ?_, ?_, ?_, ?_⟩
              · rw [htrr, htri]
                simp only [List.append_assoc, List.singleton_append,
                  List.cons_append, List.nil_append]
              · intro b
                show (true && scanOK okPushAfterAck b
                  (Δi ++ Ev.pauseBoundary :: Δr)) = true
                rw [scanOK_append, hpushi b]
                have h2 : ∀ (b' : Bool), scanOK okPushAfterAck b'
                    (Ev.pauseBoundary :: Δr) = true := by
                  intro b'
                  show (true && scanOK okPushAfterAck
                    (ackStep b' Ev.pauseBoundary) Δr) = true
                  rw [hpushr]
                  rfl
                rw [h2]
                cases Δi.foldl ackStep b <;> rfl
              · intro b
                show (true && scanOK okCheckAfterAck b
                  (Δi ++ Ev.pauseBoundary :: Δr)) = true
                rw [scanOK_append, hchecki b]
                have h2 : ∀ (b' : Bool), scanOK okCheckAfterAck b'
                    (Ev.pauseBoundary :: Δr) = true := by
                  intro b'
                  show (true && scanOK okCheckAfterAck
                    (ackStep b' Ev.pauseBoundary) Δr) = true
                  rw [hcheckr]
                  rfl
                rw [h2]
                cases Δi.foldl ackStep b <;> rfl
              · rw [checkTimes_hostSetup_cons, checkTimes_append,
                  checkTimes_pauseBoundary_cons]
                rw [List.chain'_append]
                refine ⟨(List.chain'_cons'.mp hchaini).2, hchainr, ?_⟩
                intro x hx y hy
                obtain ⟨jx, hjx1, hjx2, hjx3⟩ :=
                  hidxi x (List.mem_of_mem_getLast? hx)
                obtain ⟨jy, hjy1, hjy2⟩ := hheadr y hy
                have hjle : jx ≤ jy := Nat.le_of_lt (Nat.lt_of_lt_of_le hjx2 hjy1)
                have hmle := hmono jx jy hjle
                rw [hjx3]
                omega
              · intro y hy
                rw [checkTimes_hostSetup_cons, checkTimes_append,
                  checkTimes_pauseBoundary_cons] at hy
                cases hci : checkTimes Δi with
                | cons z zs =>
                    rw [hci] at hy
                    have hz : y = z := by
                      simp only [List.cons_append, List.head?_cons,
                        Option.mem_def, Option.some_inj] at hy
                      omega
                    refine ⟨s.clock, Nat.le_refl _, ?_⟩
                    rw [hz]
                    exact (List.chain'_cons'.mp hchaini).1 z (by rw [hci]; rfl)
                | nil =>
                    rw [hci, List.nil_append] at hy
                    obtain ⟨j, hj1, hj2⟩ := hheadr y hy
                    exact ⟨j, Nat.le_trans hclki hj1, hj2⟩
              · intro t ht
                rw [checkTimes_hostSetup_cons, checkTimes_append,
                  checkTimes_pauseBoundary_cons] at ht
                rcases List.mem_append.mp ht with h1 | h2
                · obtain ⟨j, hj1, hj2, hj3⟩ := hidxi t h1
                  exact ⟨j, hj1, Nat.lt_of_lt_of_le hj2 hclkr, hj3⟩
                · obtain ⟨j, hj1, hj2, hj3⟩ := hidxr t h2
                  exact ⟨j, Nat.le_trans hclki hj1, hj2, hj3⟩
              · exact Nat.le_trans hclki hclkr

theorem kscanOuterLoop_pushOK (env : KEnv V) (innerFuel : Nat) :
    ∀ (fuel : Nat) (s : KState V),
      ∃ Δ, (kscanOuterLoop env innerFuel fuel s).1.trace = s.trace ++ Δ ∧
        ∀ b, scanOK okPushAfterAck b Δ = true
  | 0, s => ⟨[], by simp [kscanOuterLoop], fun b => rfl⟩
  | fuel + 1, s => by
      rw [kscanOuterLoop]
      obtain ⟨Δi, htri, hpushi, -, -, -, -⟩ :=
        kscanImpl_traceOK env innerFuel
          { s with trace := s.trace ++ [Ev.hostSetup] }
      dsimp only at htri
      cases hout : (kscanImpl env innerFuel
          { s with trace := s.trace ++ [Ev.hostSetup] }).2 with
      | finished =>
          simp only [hout]
          refine ⟨Ev.hostSetup :: Δi, ?_, ?_⟩
          · rw [htri]
            simp only [List.append_assoc, List.singleton_append,
              List.cons_append, List.nil_append]
          · intro b
            show (true && scanOK okPushAfterAck b Δi) = true
            rw [hpushi b]
            rfl
      | fuelOut =>
          simp only [hout]
          refine ⟨Ev.hostSetup :: Δi, ?_, ?_⟩
          · rw [htri]
            simp only [List.append_assoc, List.singleton_append,
              List.cons_append, List.nil_append]
          · intro b
            show (true && scanOK okPushAfterAck b Δi) = true
            rw [hpushi b]
            rfl
      | paused =>
          simp only [hout]
          cases hterm : env.terminate (kscanImpl env innerFuel
              { s with trace := s.trace ++ [Ev.hostSetup] }).1.hostPauses with
          | true =>
              simp only [hterm, if_true]
              refine ⟨Ev.hostSetup :: (Δi ++ [Ev.pauseBoundary]), ?_, ?_⟩
              · show (kscanImpl env innerFuel
                    { s with trace := s.trace ++ [Ev.hostSetup] }).1.trace
                    ++ [Ev.pauseBoundary] = _
                rw [htri]
                simp only [List.append_assoc, List.singleton_append,
                  List.cons_append, List.nil_append]
              · intro b
                show (true && scanOK okPushAfterAck b
                  (Δi ++ [Ev.pauseBoundary])) = true
                rw [scanOK_append, hpushi b]
                cases Δi.foldl ackStep b <;> rfl
          | false =>
              simp only [hterm, Bool.false_eq_true, if_false]
              obtain ⟨Δr, htrr, hpushr⟩ :=
                kscanOuterLoop_pushOK env innerFuel fuel
                  { (kscanImpl env innerFuel
                      { s with trace := s.trace ++ [Ev.hostSetup] }).1 with
                    hostPauses := (kscanImpl env innerFuel
                      { s with trace := s.trace ++ [Ev.hostSetup] }).1.hostPauses
                        + 1,
                    trace := (kscanImpl env innerFuel
                      { s with trace := s.trace ++ [Ev.hostSetup] }).1.trace
                        ++ [Ev.pauseBoundary] }
              dsimp only at htrr
              refine ⟨Ev.hostSetup :: (Δi ++ Ev.pauseBoundary :: Δr), ?_, ?_⟩
              · rw [htrr, htri]
                simp only [List.append_assoc, List.singleton_append,
                  List.cons_append, List.nil_append]
              · intro b
                show (true && scanOK okPushAfterAck b
                  (Δi ++ Ev.pauseBoundary :: Δr)) = true
                rw [scanOK_append, hpushi b]
                have h2 : ∀ (b' : Bool), scanOK okPushAfterAck b'
                    (Ev.pauseBoundary :: Δr) = true := by
                  intro b'
                  show (true && scanOK okPushAfterAck
                    (ackStep b' Ev.pauseBoundary) Δr) = true
                  rw [hpushr]
                  rfl
                rw [h2]
                cases Δi.foldl ackStep b <;> rfl

/-- **C3.** On the chunked core-device path the chunk buffer is a FIFO:
a refill from the point iterator only appends new points at the tail of
the chunk and emits no events, a point-completion acknowledgment pops
exactly the chunk head and emits the acknowledgment followed by that
head's sink deliveries, the delivered values are exactly the head's
per-axis values, and over a whole run no sink delivery ever precedes the
acknowledgment of its point. -/
theorem c3_chunk_fifo_head_delivery (env : KEnv V)
    (innerFuel outerFuel : Nat) (points : List (List V)) (stores : List V) :
    (∀ (s : KState V) (values : List (List V)) (s' : KState V),
      kscanParamValuesChunk env s = some (values, s') →
        s'.chunk = s.chunk ++ s.points.take (CHUNK_SIZE - s.chunk.length) ∧
        s'.trace = s.trace) ∧
    (∀ (s : KState V) (p : List V) (rest : List (List V)),
      s.chunk = p :: rest →
        (kscanPointCompleted env s).trace
          = s.trace ++ Ev.pointAck :: pushEvents 0 p env.axes ∧
        ∃ app, (kscanPointCompleted env s).chunk = rest ++ app) ∧
    (∀ (i : Nat) (p : List V), p.length ≤ env.axes.length →
      sinkPushes i (Ev.pointAck :: pushEvents 0 p env.axes)
        = (p[i]?).toList) ∧
    scanOK okPushAfterAck false
      (runScanOnCoreDevice env innerFuel outerFuel
        (initKState points stores)).1.trace = true := by
  refine ⟨?_, ?_, ?_, ?_⟩
  · intro s values s' h
    obtain ⟨hc, -, -, htr, -, -, -, -, -⟩ := kscanParamValuesChunk_some h
    exact ⟨hc, htr⟩
  · intro s p rest hchunk
    obtain ⟨htr, -, -, app, hc⟩ := kscanPointCompleted_trace env hchunk
    exact ⟨htr, app, hc⟩
  · intro i p hlen
    show sinkPushes i (pushEvents 0 p env.axes) = (p[i]?).toList
    rw [sinkPushes_pushEvents i 0 p env.axes hlen]
    simp
  · rw [runScanOnCoreDevice]
    obtain ⟨Δ, htr, hpush⟩ :=
      kscanOuterLoop_pushOK env innerFuel outerFuel
        (kscanUpdateHostParamStores env (initKState points stores))
    obtain ⟨hu, -, -, -⟩ :=
      kscanUpdateHostParamStores_trace env (initKState points stores)
    rw [htr, hu]
    have h0 : (initKState points stores).trace = ([] : List (Ev V)) := rfl
    rw [h0, List.nil_append]
    exact hpush false

theorem c3_chunk_fifo_head_delivery_witness :
    scanOK okPushAfterAck false
      (runScanOnCoreDevice witnessEnv 4 4
        (initKState ([[5], [6]] : List (List Int)) [9])).1.trace = true ∧
    sinkPushes 0 (Ev.pointAck :: pushEvents 0 [(5 : Int)] witnessEnv.axes)
      = [(5 : Int)] := by
  refine ⟨(c3_chunk_fifo_head_delivery witnessEnv 4 4 [[5], [6]] [9]).2.2.2, ?_⟩
  have h := (c3_chunk_fifo_head_delivery witnessEnv 4 4 [[5], [6]] [9]).2.2.1
    0 [(5 : Int)] (by simp [witnessEnv])
  rw [h]
  rfl

/-- **C8.** On the chunked core-device path, `scheduler.check_pause` is
queried only after a point has been completed (never mid-point: in every
run trace a pause check is preceded by a point acknowledgment more
recently than any device-side point work), and consecutive queries are
throttled by the configured device-time interval: with a monotone RTIO
counter, successive query timestamps always differ by more than
`env.interval` (`_kscan_pause_check_interval_mu`, i.e. 0.2 s of device
time). -/
theorem c8_pause_checks_after_points_and_throttled (env : KEnv V)
    (innerFuel outerFuel : Nat) (points : List (List V)) (stores : List V)
    (hmono : ∀ (a b : Nat), a ≤ b → env.rtio a ≤ env.rtio b) :
    scanOK okCheckAfterAck false
      (runScanOnCoreDevice env innerFuel outerFuel
        (initKState points stores)).1.trace = true ∧
    List.Chain' (fun a c => c - a > env.interval)
      (checkTimes (runScanOnCoreDevice env innerFuel outerFuel
        (initKState points stores)).1.trace) := by
  rw [runScanOnCoreDevice]
  obtain ⟨Δ, htr, hpush, hcheck, hchain, hhead, hidx, hclk⟩ :=
    kscanOuterLoop_traceOK env hmono innerFuel outerFuel
      (kscanUpdateHostParamStores env (initKState points stores))
  obtain ⟨hu, -, -, -⟩ :=
    kscanUpdateHostParamStores_trace env (initKState points stores)
  rw [htr, hu]
  have h0 : (initKState points stores).trace = ([] : List (Ev V)) := rfl
  rw [h0, List.nil_append]
  exact ⟨hcheck false, hchain⟩

theorem c8_pause_checks_after_points_and_throttled_witness :
    (∀ (a b : Nat), a ≤ b → witnessEnv.rtio a ≤ witnessEnv.rtio b) ∧
    (scanOK okCheckAfterAck false
      (runScanOnCoreDevice witnessEnv 4 4
        (initKState ([[1], [2]] : List (List Int)) [9])).1.trace = true ∧
    List.Chain' (fun a c => c - a > witnessEnv.interval)
      (checkTimes (runScanOnCoreDevice witnessEnv 4 4
        (initKState ([[1], [2]] : List (List Int)) [9])).1.trace)) :=
  ⟨fun a b h => Int.ofNat_le.mpr h,
    c8_pause_checks_after_points_and_throttled witnessEnv 4 4 [[1], [2]] [9]
      (fun a b h => Int.ofNat_le.mpr h)⟩

end Ndscan
